import Mathlib

/-!
# Verification of the Move-to-Yul generator (`language/evm/move-to-yul/src/generator.rs`)

This file gives a shallow embedding in Lean 4 of the parts of the generator that
the specification's claims are about:

* the struct layout engine (`Generator::get_or_compute_struct_layout`, `Generator::type_size`);
* the demand-driven work-queue drain (`Generator::end_code_block`, `Generator::move_call`);
* the runtime semantics of the storage-migration code emitted by `Generator::move_to` /
  `Generator::move_struct_to_storage` and `Generator::move_from` /
  `Generator::move_struct_to_memory`;
* the type hashing and collision detection (`Generator::type_hash`,
  `Context::mangle_type` and friends);
* the function translator (`Generator::function`, `Generator::bytecode`,
  `Generator::collect_borrowed_locals`) and the per-contract orchestration
  (`Generator::contract`, `Generator::begin_code_block`, `Generator::end_code_block`,
  `Generator::callable_functions`, `Generator::optional_creator`).

Rust `BTreeMap`s keyed by distinct keys are modelled as association lists, `Vec` used as
a stack by Lean lists (push/pop at the head), and the mutable `Generator` state by explicit
state passing.  Where a definition models a Yul builtin whose body lives outside the
sources (in `yul_functions.rs`), its doc comment says so.
-/

namespace MoveToYul

/-! ## Types and field sizes

`move_model::ty::Type`, restricted to the constructors for which
`Generator::type_size` is defined (the remaining constructors panic there and are
documented as internal invariant violations that cannot occur for materialized
struct fields).  Struct fields are carried inline so that the recursive storage
migration can be expressed structurally. -/

inductive MoveType where
  | boolT
  | u8
  | u64
  | u128
  | addressT
  | signerT
  | structT (fields : List MoveType)
  | vectorT (elem : MoveType)

/-- `Generator::type_size`: size in bytes of the memory layout of a type.
Booleans and u8 take 1 byte, u64 8, u128 16, addresses and signers 20, and
struct or vector fields are stored as one 32-byte pointer word. -/
def typeSize : MoveType → Nat
  | .boolT => 1
  | .u8 => 1
  | .u64 => 8
  | .u128 => 16
  | .addressT => 20
  | .signerT => 20
  | .structT _ => 32
  | .vectorT _ => 32

/-- The `s_or_v` test in `get_or_compute_struct_layout`: a field type is
pointer-bearing iff it is a vector or a struct. -/
def isPtrTy : MoveType → Bool
  | .structT _ => true
  | .vectorT _ => true
  | _ => false

/-! ## Struct layout (`Generator::get_or_compute_struct_layout`) -/

/-- One entry of the `ordered_fields` intermediate list: the field's logical
offset (its position in the struct declaration), its byte size, and its type. -/
structure FieldInfo where
  offs : Nat
  size : Nat
  ty : MoveType

/-- The comparator passed to `sorted_by` in `get_or_compute_struct_layout`:
larger fields first; among equal sizes, pointer-bearing (struct/vector) fields
first; otherwise equal (the sort is stable). -/
def fieldCmp (a b : FieldInfo) : Ordering :=
  if a.size > b.size then .lt
  else if b.size > a.size then .gt
  else if isPtrTy a.ty && !isPtrTy b.ty then .lt
  else if isPtrTy b.ty && !isPtrTy a.ty then .gt
  else .eq

/-- Stable insertion used to model `itertools::sorted_by` (which performs a
stable sort): `x` is placed before the first element strictly greater than it
according to the comparator. -/
def insertByCmp (cmp : α → α → Ordering) (x : α) : List α → List α
  | [] => [x]
  | y :: ys => if cmp y x = .gt then x :: y :: ys else y :: insertByCmp cmp x ys

/-- Stable sort by a comparator (model of `itertools::sorted_by`). -/
def sortByCmp (cmp : α → α → Ordering) (l : List α) : List α :=
  l.foldl (fun acc x => insertByCmp cmp x acc) []

/-- `StructLayout`: the information about the layout of a struct in linear
memory.  `offsets` maps logical field offset to byte offset and type (a
`BTreeMap` in the source, an association list here, keys are distinct). -/
structure StructLayout where
  size : Nat
  offsets : List (Nat × Nat × MoveType)
  fieldOrder : List Nat
  pointerCount : Nat

/-- The loop body of `get_or_compute_struct_layout`: push the field on
`field_order`, bump `pointer_count` for pointer-bearing fields, record the
current accumulated size as the field's byte offset, then grow the size. -/
def layoutStep (L : StructLayout) (f : FieldInfo) : StructLayout :=
  { size := L.size + f.size
    offsets := L.offsets ++ [(f.offs, L.size, f.ty)]
    fieldOrder := L.fieldOrder ++ [f.offs]
    pointerCount := L.pointerCount + (if isPtrTy f.ty then 1 else 0) }

/-- Helper for `mkFields`, carrying the running logical offset. -/
def mkFieldsAux (i : Nat) : List MoveType → List FieldInfo
  | [] => []
  | ty :: rest => ⟨i, typeSize ty, ty⟩ :: mkFieldsAux (i + 1) rest

/-- The enumeration of the struct's fields in declaration order, paired with
their primitive sizes (`(field.get_offset(), field_size, field_type)`). -/
def mkFields (fields : List MoveType) : List FieldInfo :=
  mkFieldsAux 0 fields

/-- `Generator::get_or_compute_struct_layout` (the computation; memoization in
`struct_layout` does not change the result): sort the enumerated fields with
`fieldCmp`, then accumulate the layout. -/
def structLayoutOf (fields : List MoveType) : StructLayout :=
  (sortByCmp fieldCmp (mkFields fields)).foldl layoutStep ⟨0, [], [], 0⟩

/-- Lookup in the `offsets` map of a layout. -/
def offsetLookup (L : StructLayout) (logical : Nat) : Option (Nat × MoveType) :=
  (L.offsets.find? (fun e => e.1 == logical)).map (fun e => e.2)

/-- The type sitting at a logical offset of the struct declaration. -/
def typeAtLogical (fields : List MoveType) (i : Nat) : MoveType :=
  fields.getD i .boolT

/-! ### Layout lemmas -/

/-- Fallback `FieldInfo` used with `List.getD`. -/
def dfltField : FieldInfo := ⟨0, 0, .boolT⟩

/-- A field record is well-sized when its recorded size is the size of its type;
all entries produced by `mkFields` are. -/
def sizeWf (e : FieldInfo) : Prop := e.size = typeSize e.ty

/-- All sizes computed by `type_size` are at most one machine word. -/
theorem typeSize_le (ty : MoveType) : typeSize ty ≤ 32 := by
  cases ty <;> simp [typeSize]

/-- A field type is pointer-bearing exactly when its size is a full word. -/
theorem isPtrTy_iff_size (ty : MoveType) : isPtrTy ty = true ↔ typeSize ty = 32 := by
  cases ty <;> simp [isPtrTy, typeSize]

/-- On well-sized fields the layout comparator reduces to comparison of sizes:
it answers `gt` exactly when the left field is strictly smaller. -/
theorem fieldCmp_gt_iff (a b : FieldInfo) (ha : sizeWf a) (hb : sizeWf b) :
    fieldCmp a b = .gt ↔ a.size < b.size := by
  have ha2 : a.size = typeSize a.ty := ha
  have hb2 : b.size = typeSize b.ty := hb
  unfold fieldCmp
  split_ifs with h1 h2 h3 h4
  · constructor
    · intro hc; exact absurd hc (by decide)
    · intro hc; omega
  · constructor
    · intro _; omega
    · intro _; rfl
  · exfalso
    have h3a : isPtrTy a.ty = true ∧ isPtrTy b.ty = false := by simpa using h3
    have h32 : typeSize a.ty = 32 := (isPtrTy_iff_size a.ty).mp h3a.1
    have : isPtrTy b.ty = true := (isPtrTy_iff_size b.ty).mpr (by omega)
    simp [this] at h3a
  · exfalso
    have h4a : isPtrTy b.ty = true ∧ isPtrTy a.ty = false := by simpa using h4
    have h32 : typeSize b.ty = 32 := (isPtrTy_iff_size b.ty).mp h4a.1
    have : isPtrTy a.ty = true := (isPtrTy_iff_size a.ty).mpr (by omega)
    simp [this] at h4a
  · constructor
    · intro hc; exact absurd hc (by decide)
    · intro hc; omega

/-- Inserting with the comparator yields a permutation of consing. -/
theorem insertByCmp_perm (cmp : α → α → Ordering) (x : α) (l : List α) :
    (insertByCmp cmp x l).Perm (x :: l) := by
  induction l with
  | nil => simp [insertByCmp]
  | cons y ys ih =>
    by_cases h : cmp y x = .gt
    · simp [insertByCmp, h]
    · simp only [insertByCmp, if_neg h]
      exact (ih.cons y).trans (List.Perm.swap x y ys)

theorem foldl_insert_perm (cmp : α → α → Ordering) :
    ∀ (l acc : List α), (l.foldl (fun acc x => insertByCmp cmp x acc) acc).Perm (acc ++ l)
  | [], acc => by simp
  | x :: xs, acc => by
    have h1 := foldl_insert_perm cmp xs (insertByCmp cmp x acc)
    have h2 : (insertByCmp cmp x acc ++ xs).Perm (acc ++ x :: xs) := by
      have := (insertByCmp_perm cmp x acc).append_right xs
      exact this.trans (List.perm_middle.symm)
    simpa using h1.trans h2

/-- The stable sort permutes its input. -/
theorem sortByCmp_perm (cmp : α → α → Ordering) (l : List α) :
    (sortByCmp cmp l).Perm l := by
  have := foldl_insert_perm cmp l []
  simpa [sortByCmp] using this

/-- Sortedness in weakly descending size order. -/
def SortedDesc (l : List FieldInfo) : Prop :=
  l.Pairwise (fun a b => b.size ≤ a.size)

theorem insertByCmp_sorted (x : FieldInfo) (l : List FieldInfo)
    (hwf : ∀ e ∈ x :: l, sizeWf e) (hs : SortedDesc l) :
    SortedDesc (insertByCmp fieldCmp x l) := by
  induction l with
  | nil => simp [insertByCmp, SortedDesc]
  | cons y ys ih =>
    have hwx : sizeWf x := hwf x (List.mem_cons_self x _)
    have hwy : sizeWf y := hwf y (List.mem_cons_of_mem _ (List.mem_cons_self y _))
    rcases List.pairwise_cons.mp hs with ⟨hy, hys⟩
    by_cases h : fieldCmp y x = .gt
    · have hlt : y.size < x.size := (fieldCmp_gt_iff y x hwy hwx).mp h
      simp only [insertByCmp, if_pos h]
      refine List.pairwise_cons.mpr ⟨?_, hs⟩
      intro b hb
      rcases List.mem_cons.mp hb with hb | hb
      · subst hb; omega
      · have := hy b hb; omega
    · have hle : x.size ≤ y.size := by
        by_contra hc
        exact h ((fieldCmp_gt_iff y x hwy hwx).mpr (by omega))
      simp only [insertByCmp, if_neg h]
      refine List.pairwise_cons.mpr ⟨?_, ?_⟩
      · intro b hb
        rcases List.mem_cons.mp ((insertByCmp_perm fieldCmp x ys).mem_iff.mp hb) with hb | hb
        · subst hb; exact hle
        · exact hy b hb
      · refine ih ?_ hys
        intro e he
        rcases List.mem_cons.mp he with he | he
        · subst he; exact hwx
        · exact hwf e (List.mem_cons_of_mem _ (List.mem_cons_of_mem _ he))

theorem foldl_insert_sorted :
    ∀ (l acc : List FieldInfo), (∀ e ∈ acc ++ l, sizeWf e) → SortedDesc acc →
      SortedDesc (l.foldl (fun acc x => insertByCmp fieldCmp x acc) acc)
  | [], acc, _, hacc => by simpa using hacc
  | x :: xs, acc, hwf, hacc => by
    have hx : sizeWf x := hwf x (List.mem_append.mpr (Or.inr (List.mem_cons_self x _)))
    have hacc2 : SortedDesc (insertByCmp fieldCmp x acc) :=
      insertByCmp_sorted x acc (by
        intro e he
        rcases List.mem_cons.mp he with he | he
        · subst he; exact hx
        · exact hwf e (List.mem_append.mpr (Or.inl he))) hacc
    have hwf2 : ∀ e ∈ insertByCmp fieldCmp x acc ++ xs, sizeWf e := by
      intro e he
      rcases List.mem_append.mp he with he | he
      · rcases List.mem_cons.mp ((insertByCmp_perm fieldCmp x acc).mem_iff.mp he) with he | he
        · subst he; exact hx
        · exact hwf e (List.mem_append.mpr (Or.inl he))
      · exact hwf e (List.mem_append.mpr (Or.inr (List.mem_cons_of_mem _ he)))
    simpa using foldl_insert_sorted xs (insertByCmp fieldCmp x acc) hwf2 hacc2

/-- The stable sort by the layout comparator yields a size-descending list. -/
theorem sortByCmp_sorted (l : List FieldInfo) (hwf : ∀ e ∈ l, sizeWf e) :
    SortedDesc (sortByCmp fieldCmp l) := by
  have := foldl_insert_sorted l [] (by simpa using hwf) (by simp [SortedDesc])
  simpa [sortByCmp] using this

theorem mkFieldsAux_mem :
    ∀ (l : List MoveType) (i : Nat) (e : FieldInfo), e ∈ mkFieldsAux i l →
      i ≤ e.offs ∧ e.offs < i + l.length ∧ e.ty = l.getD (e.offs - i) .boolT ∧ sizeWf e
  | [], _, _, h => by simp [mkFieldsAux] at h
  | ty :: rest, i, e, h => by
    simp only [mkFieldsAux, List.mem_cons] at h
    rcases h with h | h
    · subst h
      refine ⟨Nat.le_refl _, by simp, by simp, rfl⟩
    · obtain ⟨h1, h2, h3, h4⟩ := mkFieldsAux_mem rest (i + 1) e h
      refine ⟨by omega, by simp; omega, ?_, h4⟩
      have : e.offs - i = (e.offs - (i + 1)) + 1 := by omega
      rw [this]
      simpa using h3

theorem mkFieldsAux_length (l : List MoveType) : ∀ i, (mkFieldsAux i l).length = l.length := by
  induction l with
  | nil => intro i; simp [mkFieldsAux]
  | cons ty rest ih => intro i; simp [mkFieldsAux, ih]

theorem mkFieldsAux_keys_nodup (l : List MoveType) :
    ∀ i, ((mkFieldsAux i l).map (fun e => e.offs)).Nodup := by
  induction l with
  | nil => intro i; simp [mkFieldsAux]
  | cons ty rest ih =>
    intro i
    simp only [mkFieldsAux, List.map_cons, List.nodup_cons]
    refine ⟨?_, ih (i + 1)⟩
    intro hmem
    rcases List.mem_map.mp hmem with ⟨e, he, hoffs⟩
    have := (mkFieldsAux_mem rest (i + 1) e he).1
    omega

/-- Number of pointer-bearing fields in a field list. -/
def countPtr (s : List FieldInfo) : Nat :=
  s.countP (fun e => isPtrTy e.ty)

/-- Sum of the recorded byte sizes of a field list. -/
def sumSizes (s : List FieldInfo) : Nat :=
  (s.map (fun e => e.size)).sum

/-- The `offsets` entries produced by accumulating byte offsets from `base`
over a field list, in order. -/
def offsetsFrom (base : Nat) : List FieldInfo → List (Nat × Nat × MoveType)
  | [] => []
  | e :: rest => (e.offs, base, e.ty) :: offsetsFrom (base + e.size) rest

/-- Closed form of the layout-accumulation loop. -/
theorem foldl_layoutStep :
    ∀ (s : List FieldInfo) (A : StructLayout),
      s.foldl layoutStep A =
        ⟨A.size + sumSizes s, A.offsets ++ offsetsFrom A.size s,
         A.fieldOrder ++ s.map (fun e => e.offs), A.pointerCount + countPtr s⟩
  | [], A => by simp [sumSizes, offsetsFrom, countPtr]
  | e :: rest, A => by
    rw [List.foldl_cons, foldl_layoutStep rest]
    simp only [layoutStep, offsetsFrom, sumSizes, countPtr, List.map_cons, List.sum_cons,
      List.countP_cons, StructLayout.mk.injEq]
    refine ⟨by omega, by simp, by simp, ?_⟩
    by_cases h : isPtrTy e.ty <;> simp [h] <;> omega

/-- `structLayoutOf` in terms of the sorted field list. -/
theorem structLayoutOf_eq (fields : List MoveType) :
    structLayoutOf fields =
      ⟨sumSizes (sortByCmp fieldCmp (mkFields fields)),
       offsetsFrom 0 (sortByCmp fieldCmp (mkFields fields)),
       (sortByCmp fieldCmp (mkFields fields)).map (fun e => e.offs),
       countPtr (sortByCmp fieldCmp (mkFields fields))⟩ := by
  unfold structLayoutOf
  rw [foldl_layoutStep]
  simp

theorem map_congr_mem (l : List α) (f g : α → β) (h : ∀ a ∈ l, f a = g a) :
    l.map f = l.map g := by
  induction l with
  | nil => rfl
  | cons a t ih =>
    simp only [List.map_cons]
    rw [h a (List.mem_cons_self a _), ih (fun b hb => h b (List.mem_cons_of_mem _ hb))]

theorem getD_mem (l : List α) (k : Nat) (d : α) (h : k < l.length) : l.getD k d ∈ l := by
  induction l generalizing k with
  | nil => simp at h
  | cons a t ih =>
    cases k with
    | zero => simp
    | succ m =>
      have : t.getD m d ∈ t := ih m (by simpa using Nat.lt_of_succ_lt_succ h)
      simp only [List.getD_cons_succ]
      exact List.mem_cons_of_mem _ this

theorem getD_map (l : List α) (f : α → β) (k : Nat) (d : α) (d0 : β) (h : k < l.length) :
    (l.map f).getD k d0 = f (l.getD k d) := by
  induction l generalizing k with
  | nil => simp at h
  | cons a t ih =>
    cases k with
    | zero => simp
    | succ m => simpa using ih m (by simpa using Nat.lt_of_succ_lt_succ h)

/-- In a size-descending well-sized list, no pointer-bearing field can follow a
non-pointer field. -/
theorem no_ptr_after_nonptr (a : FieldInfo) (t : List FieldInfo)
    (hs : SortedDesc (a :: t)) (hwf : ∀ e ∈ a :: t, sizeWf e)
    (ha : isPtrTy a.ty = false) : ∀ e ∈ t, isPtrTy e.ty = false := by
  intro e he
  rcases List.pairwise_cons.mp hs with ⟨hrel, _⟩
  by_contra hc
  have hptr : isPtrTy e.ty = true := by
    cases hx : isPtrTy e.ty
    · exact absurd hx hc
    · rfl
  have he32 : typeSize e.ty = 32 := (isPtrTy_iff_size e.ty).mp hptr
  have hwe : sizeWf e := hwf e (List.mem_cons_of_mem _ he)
  have hwa : sizeWf a := hwf a (List.mem_cons_self a _)
  have hle : e.size ≤ a.size := hrel e he
  have hle32 : typeSize a.ty ≤ 32 := typeSize_le a.ty
  have ha32 : typeSize a.ty = 32 := by
    have h1 : e.size = typeSize e.ty := hwe
    have h2 : a.size = typeSize a.ty := hwa
    omega
  have : isPtrTy a.ty = true := (isPtrTy_iff_size a.ty).mpr ha32
  simp [this] at ha

/-- In a size-descending well-sized list, position `k` holds a pointer-bearing
field exactly when `k` is below the number of pointer-bearing fields. -/
theorem ptr_pos_iff :
    ∀ (s : List FieldInfo), SortedDesc s → (∀ e ∈ s, sizeWf e) →
      ∀ k, k < s.length → ((k < countPtr s) ↔ isPtrTy ((s.getD k dfltField).ty) = true)
  | [], _, _, k, hk => by simp at hk
  | a :: t, hs, hwf, k, hk => by
    have hst : SortedDesc t := (List.pairwise_cons.mp hs).2
    have hwt : ∀ e ∈ t, sizeWf e := fun e he => hwf e (List.mem_cons_of_mem _ he)
    cases hpa : isPtrTy a.ty with
    | true =>
      have hcnt : countPtr (a :: t) = countPtr t + 1 := by
        simp [countPtr, List.countP_cons, hpa]
      cases k with
      | zero => simpa [hcnt] using hpa
      | succ m =>
        have hm : m < t.length := by simpa using Nat.lt_of_succ_lt_succ hk
        have := ptr_pos_iff t hst hwt m hm
        simpa [hcnt, Nat.succ_lt_succ_iff] using this
    | false =>
      have hzero : countPtr (a :: t) = 0 := by
        have hnone := no_ptr_after_nonptr a t hs hwf hpa
        simp only [countPtr, List.countP_cons, hpa]
        have : t.countP (fun e => isPtrTy e.ty) = 0 := by
          rw [List.countP_eq_zero]
          intro e he
          simp [hnone e he]
        simp [this]
      rw [hzero]
      cases k with
      | zero => simpa using hpa
      | succ m =>
        have hm : m < t.length := by simpa using Nat.lt_of_succ_lt_succ hk
        have hmem : t.getD m dfltField ∈ t := getD_mem t m dfltField hm
        have hf := no_ptr_after_nonptr a t hs hwf hpa _ hmem
        constructor
        · intro hc; exact absurd hc (by omega)
        · intro hc
          rw [List.getD_cons_succ, hf] at hc
          exact absurd hc (by simp)

/-- Looking up the `k`-th ordered field's logical offset in the accumulated
`offsets` map returns its byte offset `base + sumSizes (s.take k)` and its type
(keys being distinct logical offsets). -/
theorem offsetsFrom_find :
    ∀ (s : List FieldInfo) (base k : Nat), ((s.map (fun e => e.offs)).Nodup) → k < s.length →
      ((offsetsFrom base s).find? (fun e => e.1 == (s.getD k dfltField).offs)).map
          (fun e => e.2) =
        some (base + sumSizes (s.take k), (s.getD k dfltField).ty)
  | [], _, k, _, hk => by simp at hk
  | a :: t, base, 0, _, _ => by
    simp [offsetsFrom, List.find?, sumSizes]
  | a :: t, base, k + 1, hnd, hk => by
    have hk2 : k < t.length := by simpa using Nat.lt_of_succ_lt_succ hk
    have hnd2 : (t.map (fun e => e.offs)).Nodup := (List.nodup_cons.mp (by simpa using hnd)).2
    have hne : a.offs ≠ (t.getD k dfltField).offs := by
      intro hc
      have hnotin : a.offs ∉ t.map (fun e => e.offs) := (List.nodup_cons.mp (by simpa using hnd)).1
      exact hnotin (hc ▸ List.mem_map.mpr ⟨t.getD k dfltField, getD_mem t k dfltField hk2, rfl⟩)
    have hbeq : (a.offs == ((a :: t).getD (k + 1) dfltField).offs) = false := by
      rw [List.getD_cons_succ]
      simpa using hne
    simp only [offsetsFrom, List.find?]
    rw [List.getD_cons_succ] at hbeq ⊢
    simp only [hbeq]
    have := offsetsFrom_find t (base + a.size) k hnd2 hk2
    rw [this]
    simp [sumSizes]
    omega

/-- For `k` below the pointer count, the first `k` ordered fields are all one
word in size, so their sizes sum to `32 * k`. -/
theorem ptr_take_sizes :
    ∀ (s : List FieldInfo), SortedDesc s → (∀ e ∈ s, sizeWf e) →
      ∀ k, k ≤ countPtr s → sumSizes (s.take k) = 32 * k
  | _, _, _, 0, _ => by simp [sumSizes]
  | [], _, _, k + 1, hk => by
    simp [countPtr] at hk
  | a :: t, hs, hwf, k + 1, hk => by
    have hst : SortedDesc t := (List.pairwise_cons.mp hs).2
    have hwt : ∀ e ∈ t, sizeWf e := fun e he => hwf e (List.mem_cons_of_mem _ he)
    have hpa : isPtrTy a.ty = true := by
      cases hx : isPtrTy a.ty
      · exfalso
        have hnone := no_ptr_after_nonptr a t hs hwf hx
        have : countPtr (a :: t) = 0 := by
          simp only [countPtr, List.countP_cons, hx]
          have : t.countP (fun e => isPtrTy e.ty) = 0 := by
            rw [List.countP_eq_zero]
            intro e he
            simp [hnone e he]
          simp [this]
        omega
      · rfl
    have ha32 : a.size = 32 := by
      have h1 : a.size = typeSize a.ty := hwf a (List.mem_cons_self a _)
      have h2 : typeSize a.ty = 32 := (isPtrTy_iff_size a.ty).mp hpa
      omega
    have hcnt : countPtr (a :: t) = countPtr t + 1 := by
      simp [countPtr, List.countP_cons, hpa]
    have hk2 : k ≤ countPtr t := by omega
    have := ptr_take_sizes t hst hwt k hk2
    simp only [List.take_succ_cons, sumSizes, List.map_cons, List.sum_cons]
    have h3 : (List.map (fun e => e.size) (t.take k)).sum = 32 * k := this
    omega

/-- C1 (supporting form): the layout invariant, phrased over the sorted field
list backing `structLayoutOf`. -/
theorem structLayout_main (fields : List MoveType) :
    (structLayoutOf fields).fieldOrder.length = fields.length ∧
    (structLayoutOf fields).pointerCount ≤ (structLayoutOf fields).fieldOrder.length ∧
    (∀ k, k < (structLayoutOf fields).fieldOrder.length →
       ((k < (structLayoutOf fields).pointerCount) ↔
         isPtrTy (typeAtLogical fields ((structLayoutOf fields).fieldOrder.getD k 0)) = true)) ∧
    (∀ k, k < (structLayoutOf fields).pointerCount →
       offsetLookup (structLayoutOf fields) ((structLayoutOf fields).fieldOrder.getD k 0) =
         some (32 * k,
           typeAtLogical fields ((structLayoutOf fields).fieldOrder.getD k 0))) ∧
    (structLayoutOf fields).size =
      ((structLayoutOf fields).fieldOrder.map
        (fun i => typeSize (typeAtLogical fields i))).sum := by
  have hperm : (sortByCmp fieldCmp (mkFields fields)).Perm (mkFields fields) :=
    sortByCmp_perm fieldCmp (mkFields fields)
  set s := sortByCmp fieldCmp (mkFields fields) with hsdef
  have hmem : ∀ e ∈ s, fields.getD e.offs .boolT = e.ty ∧ sizeWf e ∧ e.offs < fields.length := by
    intro e he
    have : e ∈ mkFields fields := hperm.mem_iff.mp he
    obtain ⟨h1, h2, h3, h4⟩ := mkFieldsAux_mem fields 0 e this
    refine ⟨?_, h4, by omega⟩
    simpa using h3.symm
  have hwf : ∀ e ∈ s, sizeWf e := fun e he => (hmem e he).2.1
  have hsorted : SortedDesc s := by
    rw [hsdef]
    exact sortByCmp_sorted (mkFields fields) (by
      intro e he
      exact (mkFieldsAux_mem fields 0 e he).2.2.2)
  have hnd : (s.map (fun e => e.offs)).Nodup :=
    ((hperm.map (fun e => e.offs)).nodup_iff).mpr (mkFieldsAux_keys_nodup fields 0)
  have heq := structLayoutOf_eq fields
  have hFO : (structLayoutOf fields).fieldOrder = s.map (fun e => e.offs) := by rw [heq]
  have hPC : (structLayoutOf fields).pointerCount = countPtr s := by rw [heq]
  have hSZ : (structLayoutOf fields).size = sumSizes s := by rw [heq]
  have hOFF : (structLayoutOf fields).offsets = offsetsFrom 0 s := by rw [heq]
  have hlen : s.length = fields.length := by
    have h1 := hperm.length_eq
    have h2 : (mkFields fields).length = fields.length := mkFieldsAux_length fields 0
    omega
  have hcount_le : countPtr s ≤ s.length := by
    simpa [countPtr] using List.countP_le_length (p := fun e => isPtrTy e.ty) (l := s)
  refine ⟨by rw [hFO, List.length_map]; exact hlen,
          by rw [hFO, hPC, List.length_map]; exact hcount_le, ?_, ?_, ?_⟩
  · intro k hk
    rw [hFO, List.length_map] at hk
    have hgd : (s.map (fun e => e.offs)).getD k 0 = (s.getD k dfltField).offs :=
      getD_map s (fun e => e.offs) k dfltField 0 hk
    have hmemk := hmem (s.getD k dfltField) (getD_mem s k dfltField hk)
    rw [hPC, hFO, hgd]
    show k < countPtr s ↔ isPtrTy (fields.getD (s.getD k dfltField).offs .boolT) = true
    rw [hmemk.1]
    exact ptr_pos_iff s hsorted hwf k hk
  · intro k hk
    rw [hPC] at hk
    have hk2 : k < s.length := Nat.lt_of_lt_of_le hk hcount_le
    have hgd : (s.map (fun e => e.offs)).getD k 0 = (s.getD k dfltField).offs :=
      getD_map s (fun e => e.offs) k dfltField 0 hk2
    have hmemk := hmem (s.getD k dfltField) (getD_mem s k dfltField hk2)
    have hfind := offsetsFrom_find s 0 k hnd hk2
    have htake : sumSizes (s.take k) = 32 * k :=
      ptr_take_sizes s hsorted hwf k (Nat.le_of_lt hk)
    rw [hFO, hgd]
    unfold offsetLookup
    rw [hOFF, hfind, htake]
    show some (0 + 32 * k, (s.getD k dfltField).ty) =
      some (32 * k, fields.getD (s.getD k dfltField).offs .boolT)
    rw [hmemk.1, Nat.zero_add]
  · have hmap : (s.map (fun e => e.offs)).map (fun i => typeSize (typeAtLogical fields i)) =
        s.map (fun e => e.size) := by
      rw [List.map_map]
      refine map_congr_mem s _ _ ?_
      intro e he
      have h1 := (hmem e he).1
      have h2 : e.size = typeSize e.ty := (hmem e he).2.1
      show typeSize (typeAtLogical fields e.offs) = e.size
      unfold typeAtLogical
      rw [h1, ← h2]
    rw [hSZ, hFO, hmap]
    rfl

/-- C1: For every instantiated struct, the layout computed by
`get_or_compute_struct_layout` satisfies: the first `pointer_count` entries of
`field_order` are exactly the fields whose type is a struct or vector (a
position is below `pointer_count` iff the field there is pointer-bearing),
every such pointer-bearing field's byte offset is a multiple of the machine
word size (the `k`-th one sits at byte offset `32 * k`), and the layout's
total size equals the sum of the per-field primitive sizes over `field_order`. -/
theorem c1_struct_layout_invariant (fields : List MoveType) :
    (structLayoutOf fields).fieldOrder.length = fields.length ∧
    (structLayoutOf fields).pointerCount ≤ (structLayoutOf fields).fieldOrder.length ∧
    (∀ k, k < (structLayoutOf fields).fieldOrder.length →
       ((k < (structLayoutOf fields).pointerCount) ↔
         isPtrTy (typeAtLogical fields ((structLayoutOf fields).fieldOrder.getD k 0)) = true)) ∧
    (∀ k, k < (structLayoutOf fields).pointerCount →
       offsetLookup (structLayoutOf fields) ((structLayoutOf fields).fieldOrder.getD k 0) =
         some (32 * k,
           typeAtLogical fields ((structLayoutOf fields).fieldOrder.getD k 0))) ∧
    (structLayoutOf fields).size =
      ((structLayoutOf fields).fieldOrder.map
        (fun i => typeSize (typeAtLogical fields i))).sum :=
  structLayout_main fields

/-- Witness for C1 at the concrete struct `{ x: u64, y: S { z: u8 }, w: u8 }`:
its single pointer field is ordered first at byte offset 0. -/
theorem c1_struct_layout_invariant_witness :
    offsetLookup (structLayoutOf [MoveType.u64, MoveType.structT [MoveType.u8], MoveType.u8])
        ((structLayoutOf
            [MoveType.u64, MoveType.structT [MoveType.u8], MoveType.u8]).fieldOrder.getD 0 0) =
      some (32 * 0,
        typeAtLogical [MoveType.u64, MoveType.structT [MoveType.u8], MoveType.u8]
          ((structLayoutOf
              [MoveType.u64, MoveType.structT [MoveType.u8], MoveType.u8]).fieldOrder.getD 0 0)) :=
  (c1_struct_layout_invariant
    [MoveType.u64, MoveType.structT [MoveType.u8], MoveType.u8]).2.2.2.1 0 (by decide)

/-! ## The demand-queue drain (`Generator::end_code_block` / `Generator::move_call`)

`needed_move_functions` is a `Vec` used as a stack (push/pop at the same end),
`done_move_functions` a set.  `move_call` pushes a callee only when it is not
yet done; `function` first inserts the function into the done set and then
translates its body, pushing the functions it calls; `end_code_block` pops
until the stack is empty, skipping already-done entries.  Function identifiers
(including instantiation) reachable in a finite program form a finite type,
modelled as `Fin n`; `calls f` lists the move-call targets appearing in `f`'s
translated body, in order. -/

/-- State of the move-function work queue: the pending stack, the done set, and
the trace of functions whose definitions have been emitted so far. -/
structure DrainState (n : Nat) where
  needed : List (Fin n)
  done : Finset (Fin n)
  emitted : List (Fin n)

/-- The queue-discipline part of `Generator::move_call`: push the callee on the
pending stack unless it is already done. -/
def pushNeeded {n : Nat} (s : DrainState n) (f : Fin n) : DrainState n :=
  if f ∈ s.done then s else { s with needed := f :: s.needed }

/-- The queue-discipline part of `Generator::function`: record `f` as done and
emitted, then push all callees occurring in its body. -/
def emitFunction {n : Nat} (calls : Fin n → List (Fin n)) (s : DrainState n) (f : Fin n) :
    DrainState n :=
  (calls f).foldl pushNeeded { s with done := insert f s.done, emitted := s.emitted ++ [f] }

/-- Upper bound on how many pushes one emission can perform. -/
def maxCalls {n : Nat} (calls : Fin n → List (Fin n)) : Nat :=
  ((List.finRange n).map (fun f => (calls f).length)).foldl Nat.max 0

theorem pushNeeded_done {n : Nat} (s : DrainState n) (f : Fin n) :
    (pushNeeded s f).done = s.done := by
  unfold pushNeeded; split <;> rfl

theorem pushNeeded_emitted {n : Nat} (s : DrainState n) (f : Fin n) :
    (pushNeeded s f).emitted = s.emitted := by
  unfold pushNeeded; split <;> rfl

theorem pushNeeded_len {n : Nat} (s : DrainState n) (f : Fin n) :
    (pushNeeded s f).needed.length ≤ s.needed.length + 1 := by
  unfold pushNeeded; split <;> simp

theorem foldl_pushNeeded_done {n : Nat} :
    ∀ (l : List (Fin n)) (s : DrainState n), (l.foldl pushNeeded s).done = s.done
  | [], s => rfl
  | f :: rest, s => by
    rw [List.foldl_cons, foldl_pushNeeded_done rest, pushNeeded_done]

theorem foldl_pushNeeded_emitted {n : Nat} :
    ∀ (l : List (Fin n)) (s : DrainState n), (l.foldl pushNeeded s).emitted = s.emitted
  | [], s => rfl
  | f :: rest, s => by
    rw [List.foldl_cons, foldl_pushNeeded_emitted rest, pushNeeded_emitted]

theorem foldl_pushNeeded_len {n : Nat} :
    ∀ (l : List (Fin n)) (s : DrainState n),
      (l.foldl pushNeeded s).needed.length ≤ s.needed.length + l.length
  | [], s => by simp
  | f :: rest, s => by
    rw [List.foldl_cons]
    have h1 := foldl_pushNeeded_len rest (pushNeeded s f)
    have h2 := pushNeeded_len s f
    simp only [List.length_cons]
    omega

theorem le_foldl_max : ∀ (l : List Nat) (a : Nat), a ≤ l.foldl Nat.max a
  | [], a => Nat.le_refl a
  | x :: rest, a => by
    rw [List.foldl_cons]
    exact Nat.le_trans (Nat.le_max_left a x) (le_foldl_max rest (Nat.max a x))

theorem mem_le_foldl_max : ∀ (l : List Nat) (a x : Nat), x ∈ l → x ≤ l.foldl Nat.max a
  | [], _, _, hx => by simp at hx
  | y :: rest, a, x, hx => by
    rw [List.foldl_cons]
    rcases List.mem_cons.mp hx with hx | hx
    · subst hx
      exact Nat.le_trans (Nat.le_max_right a x) (le_foldl_max rest (Nat.max a x))
    · exact mem_le_foldl_max rest (Nat.max a y) x hx

theorem calls_le_maxCalls {n : Nat} (calls : Fin n → List (Fin n)) (f : Fin n) :
    (calls f).length ≤ maxCalls calls := by
  refine mem_le_foldl_max _ 0 _ ?_
  exact List.mem_map.mpr ⟨f, List.mem_finRange f, rfl⟩

/-- Termination measure of the drain: done-set growth weighted by the largest
possible burst of pushes, plus the pending-stack length. -/
def drainMeasure {n : Nat} (calls : Fin n → List (Fin n)) (s : DrainState n) : Nat :=
  (n - s.done.card) * (maxCalls calls + 1) + s.needed.length

/-- The drain loop of `Generator::end_code_block`: pop pending functions,
emitting those not yet done (which may push new pending functions), until the
pending stack is empty. -/
def endCodeBlockDrain {n : Nat} (calls : Fin n → List (Fin n)) (s : DrainState n) :
    DrainState n :=
  match h : s.needed with
  | [] => s
  | f :: rest =>
    if hf : f ∈ s.done then endCodeBlockDrain calls { s with needed := rest }
    else endCodeBlockDrain calls (emitFunction calls { s with needed := rest } f)
termination_by drainMeasure calls s
decreasing_by
  · have hL : s.needed.length = rest.length + 1 := by rw [h]; rfl
    show drainMeasure calls { s with needed := rest } < drainMeasure calls s
    simp only [drainMeasure]
    rw [hL]
    exact Nat.add_lt_add_left (by omega) _
  · have hL : s.needed.length = rest.length + 1 := by rw [h]; rfl
    show drainMeasure calls (emitFunction calls { s with needed := rest } f) <
      drainMeasure calls s
    have hdone : (emitFunction calls { s with needed := rest } f).done = insert f s.done := by
      unfold emitFunction
      rw [foldl_pushNeeded_done]
    have hlen2 : (emitFunction calls { s with needed := rest } f).needed.length ≤
        rest.length + (calls f).length := by
      unfold emitFunction
      exact foldl_pushNeeded_len _ _
    have hcard : (insert f s.done).card = s.done.card + 1 :=
      Finset.card_insert_of_not_mem hf
    have hcardle : (insert f s.done).card ≤ n := by
      have h1 := Finset.card_le_univ (insert f s.done)
      simpa using h1
    have hmc := calls_le_maxCalls calls f
    simp only [drainMeasure, hdone, hcard]
    have hsplit : (n - s.done.card) * (maxCalls calls + 1)
        = (n - (s.done.card + 1)) * (maxCalls calls + 1) + (maxCalls calls + 1) := by
      have hnd : n - s.done.card = (n - (s.done.card + 1)) + 1 := by omega
      rw [hnd, Nat.succ_mul]
    rw [hL, hsplit]
    omega

theorem emitFunction_emitted {n : Nat} (calls : Fin n → List (Fin n)) (s : DrainState n)
    (f : Fin n) : (emitFunction calls s f).emitted = s.emitted ++ [f] := by
  unfold emitFunction
  rw [foldl_pushNeeded_emitted]

theorem emitFunction_done {n : Nat} (calls : Fin n → List (Fin n)) (s : DrainState n)
    (f : Fin n) : (emitFunction calls s f).done = insert f s.done := by
  unfold emitFunction
  rw [foldl_pushNeeded_done]

/-- The drain empties the pending stack, and preserves the invariant that the
emission trace has no duplicates and only mentions done functions. -/
theorem drain_inv {n : Nat} (calls : Fin n → List (Fin n)) (s : DrainState n) :
    (endCodeBlockDrain calls s).needed = [] ∧
    (s.emitted.Nodup → (∀ g ∈ s.emitted, g ∈ s.done) →
      (endCodeBlockDrain calls s).emitted.Nodup) := by
  refine endCodeBlockDrain.induct calls
    (fun t => (endCodeBlockDrain calls t).needed = [] ∧
      (t.emitted.Nodup → (∀ g ∈ t.emitted, g ∈ t.done) →
        (endCodeBlockDrain calls t).emitted.Nodup)) ?_ ?_ ?_ s
  · intro x h
    rw [endCodeBlockDrain]
    split
    · exact ⟨h, fun h1 _ => h1⟩
    · next f rest heq =>
        rw [h] at heq
        simp at heq
  · intro x f rest h hf ih
    rw [endCodeBlockDrain]
    split
    · next heq =>
        rw [h] at heq
        simp at heq
    · next f2 rest2 heq =>
        rw [h] at heq
        injection heq with h1 h2
        subst h1
        subst h2
        rw [dif_pos hf]
        exact ih
  · intro x f rest h hf ih
    rw [endCodeBlockDrain]
    split
    · next heq =>
        rw [h] at heq
        simp at heq
    · next f2 rest2 heq =>
        rw [h] at heq
        injection heq with h1 h2
        subst h1
        subst h2
        rw [dif_neg hf]
        refine ⟨ih.1, ?_⟩
        intro h1 h2
        refine ih.2 ?_ ?_
        · rw [emitFunction_emitted]
          rw [List.nodup_append]
          refine ⟨h1, by simp, ?_⟩
          intro g hg hgf
          have : g = f := by simpa using hgf
          subst this
          exact hf (h2 g hg)
        · intro g hg
          rw [emitFunction_emitted] at hg
          rw [emitFunction_done]
          rcases List.mem_append.mp hg with hg | hg
          · exact Finset.mem_insert_of_mem (h2 g hg)
          · have : g = f := by simpa using hg
            subst this
            exact Finset.mem_insert_self g _

/-- C2: the drain in `end_code_block` is a terminating fixpoint with
exactly-once emission: a function already in the done set is never pushed onto
the pending stack by `move_call`; the drain (a total function, terminating by
the measure `drainMeasure` since pending items move monotonically into the
finite done set) ends with an empty pending stack; and the emission trace of
the drained state has no duplicates — each needed function's definition is
emitted at most once. -/
theorem c2_drain_fixpoint {n : Nat} (calls : Fin n → List (Fin n)) (s : DrainState n)
    (h1 : s.emitted.Nodup) (h2 : ∀ g ∈ s.emitted, g ∈ s.done) :
    (∀ (t : DrainState n) (f : Fin n), f ∈ t.done → pushNeeded t f = t) ∧
    (endCodeBlockDrain calls s).needed = [] ∧
    (endCodeBlockDrain calls s).emitted.Nodup := by
  refine ⟨?_, (drain_inv calls s).1, (drain_inv calls s).2 h1 h2⟩
  intro t f hf
  unfold pushNeeded
  rw [if_pos hf]

/-- Witness for C2: a two-function program where function 1 is pending and
calls function 0. -/
theorem c2_drain_fixpoint_witness :
    (∀ (t : DrainState 2) (f : Fin 2), f ∈ t.done → pushNeeded t f = t) ∧
    (endCodeBlockDrain (fun _ => [(0 : Fin 2)])
      ⟨[(1 : Fin 2)], ∅, []⟩).needed = [] ∧
    (endCodeBlockDrain (fun _ => [(0 : Fin 2)])
      ⟨[(1 : Fin 2)], ∅, []⟩).emitted.Nodup :=
  c2_drain_fixpoint (fun _ => [(0 : Fin 2)]) ⟨[(1 : Fin 2)], ∅, []⟩ (by simp) (by simp)

/-! ## Runtime semantics of the emitted storage-migration code
    (`Generator::move_to` / `move_struct_to_storage`,
     `Generator::move_from` / `move_struct_to_memory`)

The generator emits straight-line Yul whose runtime behaviour is a function of
the EVM storage and memory; we give that behaviour directly as a state
transformer, following the emission code statement by statement.  Word-aligned
storage and memory are maps from addresses to words (association lists with
default `0`).  The Yul builtins whose definitions live in `yul_functions.rs`
(absent from the sources) are modelled from the spec:
`StorageLoadU8`/`AlignedStorageLoad` read the word at the given (aligned)
address, `AlignedStorageStore`/`StorageStoreU8` write it (the existence flag
word only ever holds the boolean flag), `AbortBuiltin` terminates the call,
`Malloc`/`NewLinkedStorageBase` return fresh regions (given by allocation
oracles `memAlloc`/`linkAlloc` applied to a running counter), and `Free` is
recorded in a trace (it is a nop in the arena-style runtime).  Yul's `not` is
the target machine's 256-bit bitwise negation, and an `if` runs its body on
any nonzero condition value. -/

/-- Word-addressed store with default value 0. -/
abbrev Store := List (Nat × Nat)

/-- Read a word (0 when never written). -/
def Store.get (s : Store) (a : Nat) : Nat :=
  ((s.find? (fun p => p.1 == a)).map (fun p => p.2)).getD 0

/-- Write a word. -/
def Store.set (s : Store) (a v : Nat) : Store :=
  (a, v) :: s

theorem Store.get_set (s : Store) (a v b : Nat) :
    (s.set a v).get b = if b = a then v else s.get b := by
  unfold Store.get Store.set
  by_cases h : b = a
  · subst h
    simp [List.find?]
  · have : (a == b) = false := by simpa using fun hc => h hc.symm
    simp [List.find?, this, h]

/-- Runtime state threaded through the emitted code: persistent storage,
volatile memory, the allocation counters for linked storage bases and memory
blocks, and traces of the `Free` and `Malloc` calls performed. -/
structure EvmSt where
  storage : Store
  memory : Store
  nextLinked : Nat
  nextMem : Nat
  freed : List (Nat × Nat)
  mallocs : List (Nat × Nat)
deriving DecidableEq

/-- Outcomes that terminate the emitted code early: a runtime abort
(`AbortBuiltin`), or a modelling artifact (`internal`) for compiler panics and
exhausted recursion fuel — never reached in the claims' scenarios. -/
inductive SemErr where
  | abortRuntime
  | internal
deriving DecidableEq

/-- Yul's `not`: 256-bit bitwise negation (the EVM `NOT` opcode). -/
def yulNot (v : Nat) : Nat := 2 ^ 256 - 1 - v % 2 ^ 256

/-- The word-by-word scalar copy loop of `move_struct_to_storage`: while
`offs < size`, store the memory word at `src + offs` into storage at
`dst + offs` and advance by one word. -/
def storageCopyWords (src dst : Nat) (offs size : Nat) (st : EvmSt) : EvmSt :=
  if h : offs < size then
    storageCopyWords src dst (offs + 32) size
      { st with storage := st.storage.set (dst + offs) (st.memory.get (src + offs)) }
  else st
termination_by size - offs
decreasing_by omega

/-- The scalar part of `move_struct_to_storage`: if any non-pointer fields
remain, start at the first one's byte offset (asserted to be word-aligned) and
copy word by word up to the struct's size. -/
def mtssScalar (L : StructLayout) (src dst : Nat) (st : EvmSt) : Except SemErr EvmSt :=
  if L.pointerCount < L.fieldOrder.length then
    match offsetLookup L (L.fieldOrder.getD L.pointerCount 0) with
    | none => .error .internal
    | some (offs0, _) =>
      if offs0 % 32 ≠ 0 then .error .internal
      else .ok (storageCopyWords src dst offs0 L.size st)
  else .ok st

mutual

/-- `Generator::move_struct_to_storage`: migrate the pointer fields (the first
`pointer_count` entries of `field_order`) into freshly allocated linked
storage, then copy the scalar fields word by word, then free the source memory
block.  `fuel` bounds the recursion depth (the struct type tree and the field
lists are finite, so enough fuel always exists). -/
def moveStructToStorage (linkAlloc : Nat → Nat → Nat) (thash : MoveType → Nat) :
    Nat → List MoveType → Nat → Nat → EvmSt → Except SemErr EvmSt
  | 0, _, _, _, _ => .error .internal
  | fuel + 1, fields, src, dst, st =>
    match mtssPtr linkAlloc thash (structLayoutOf fields) fuel
        ((structLayoutOf fields).fieldOrder.take (structLayoutOf fields).pointerCount)
        src dst st with
    | .error e => .error e
    | .ok st1 =>
      match mtssScalar (structLayoutOf fields) src dst st1 with
      | .error e => .error e
      | .ok st2 => .ok { st2 with freed := st2.freed ++ [(src, (structLayoutOf fields).size)] }

/-- The pointer-field loop of `move_struct_to_storage`: for each leading
pointer field (asserted to lie on a word boundary), skip vectors with a
"not yet implemented" diagnostic, and for struct fields allocate a new linked
storage base from the field's type hash, load the linked memory pointer,
recursively migrate, and store the linked base at the field's slot. -/
def mtssPtr (linkAlloc : Nat → Nat → Nat) (thash : MoveType → Nat) (L : StructLayout) :
    Nat → List Nat → Nat → Nat → EvmSt → Except SemErr EvmSt
  | _, [], _, _, st => .ok st
  | 0, _ :: _, _, _, _ => .error .internal
  | fuel + 1, fo :: rest, src, dst, st =>
    match offsetLookup L fo with
    | none => .error .internal
    | some (byteOffs, ty) =>
      if byteOffs % 32 ≠ 0 then .error .internal
      else
        match ty with
        | .vectorT _ => mtssPtr linkAlloc thash L fuel rest src dst st
        | .structT inner =>
          let linkedDst := linkAlloc st.nextLinked (thash (.structT inner))
          let st1 := { st with nextLinked := st.nextLinked + 1 }
          let linkedSrc := st1.memory.get (src + byteOffs)
          match moveStructToStorage linkAlloc thash fuel inner linkedSrc linkedDst st1 with
          | .error e => .error e
          | .ok st2 =>
            mtssPtr linkAlloc thash L fuel rest src dst
              { st2 with storage := st2.storage.set (dst + byteOffs) linkedDst }
        | _ => .error .internal

end

/-- `Generator::move_to`: compute the storage base for the resource, load the
existence flag word stored there; if it is set (nonzero), abort; otherwise set
the flag (`AlignedStorageStore(base, true)`) and migrate the struct to
`base + 32` (the data starts past the flag word). -/
def moveToStorage (linkAlloc : Nat → Nat → Nat) (thash : MoveType → Nat) (fuel : Nat)
    (fields : List MoveType) (base src : Nat) (st : EvmSt) : Except SemErr EvmSt :=
  if st.storage.get base ≠ 0 then .error .abortRuntime
  else
    moveStructToStorage linkAlloc thash fuel fields src (base + 32)
      { st with storage := st.storage.set base 1 }

/-! ### `move_to` lemmas: the emitted migration never writes below its
destination region nor outside the freshly allocated linked regions. -/

theorem scw_preserves (src dst size a : Nat) (ha : a < dst) :
    ∀ (fuel offs : Nat) (st : EvmSt), size - offs ≤ fuel →
      (storageCopyWords src dst offs size st).storage.get a = st.storage.get a
  | 0, offs, st, hle => by
    rw [storageCopyWords, dif_neg (by omega)]
  | fuel + 1, offs, st, hle => by
    rw [storageCopyWords]
    by_cases h : offs < size
    · rw [dif_pos h]
      rw [scw_preserves src dst size a ha fuel (offs + 32) _ (by omega)]
      rw [Store.get_set]
      rw [if_neg (by omega)]
    · rw [dif_neg h]

theorem mtssScalar_preserves (L : StructLayout) (src dst a : Nat) (st st1 : EvmSt)
    (h : mtssScalar L src dst st = .ok st1) (ha : a < dst) :
    st1.storage.get a = st.storage.get a := by
  unfold mtssScalar at h
  split at h
  · split at h
    · simp at h
    · split at h
      · simp at h
      · cases h
        rename_i offs0 ty heq hmod
        exact scw_preserves src dst L.size a ha (L.size - offs0) offs0 st (Nat.le_refl _)
  · cases h; rfl

/-- Neither the recursive migration nor the pointer-field loop writes any
storage slot below the destination region and below every linked base the
allocator can return. -/
theorem mtss_pres_all (linkAlloc : Nat → Nat → Nat) (thash : MoveType → Nat)
    (a : Nat) (hla : ∀ i h, a < linkAlloc i h) :
    ∀ fuel,
      (∀ fields src dst st st1,
        moveStructToStorage linkAlloc thash fuel fields src dst st = .ok st1 →
        a < dst → st1.storage.get a = st.storage.get a) ∧
      (∀ L fos src dst st st1,
        mtssPtr linkAlloc thash L fuel fos src dst st = .ok st1 →
        a < dst → st1.storage.get a = st.storage.get a) := by
  intro fuel
  induction fuel using Nat.strong_induction_on with
  | _ fuel ih =>
    constructor
    · intro fields src dst st st1 h ha
      cases fuel with
      | zero => rw [moveStructToStorage] at h; simp at h
      | succ g =>
        rw [moveStructToStorage] at h
        split at h
        · simp at h
        · rename_i stp hp
          split at h
          · simp at h
          · rename_i sts hsc
            have hst1 : st1 = { sts with
                freed := sts.freed ++ [(src, (structLayoutOf fields).size)] } := by
              cases h; rfl
            rw [hst1]
            show sts.storage.get a = st.storage.get a
            rw [mtssScalar_preserves (structLayoutOf fields) src dst a stp sts hsc ha]
            exact (ih g (by omega)).2 _ _ src dst st stp hp ha
    · intro L fos src dst st st1 h ha
      cases fuel with
      | zero =>
        cases fos with
        | nil => rw [mtssPtr] at h; cases h; rfl
        | cons fo rest => rw [mtssPtr] at h; simp at h
      | succ g =>
        cases fos with
        | nil => rw [mtssPtr] at h; cases h; rfl
        | cons fo rest =>
          rw [mtssPtr] at h
          split at h
          · simp at h
          · rename_i byteOffs ty heq
            split at h
            · simp at h
            · rename_i hmod
              cases ty with
              | vectorT elem =>
                exact (ih g (by omega)).2 L rest src dst st st1 h ha
              | structT inner =>
                simp only [] at h
                split at h
                · simp at h
                · rename_i st2 hs
                  have h1 := (ih g (by omega)).2 L rest src dst
                    { st2 with storage :=
                        (st2.storage.set (dst + byteOffs)
                          (linkAlloc st.nextLinked (thash (.structT inner)))) }
                    st1 h ha
                  rw [h1]
                  show (st2.storage.set (dst + byteOffs) _).get a = st.storage.get a
                  rw [Store.get_set, if_neg (by omega)]
                  have h2 := (ih g (by omega)).1 inner (st.memory.get (src + byteOffs))
                    (linkAlloc st.nextLinked (thash (.structT inner)))
                    { st with nextLinked := st.nextLinked + 1 } st2 hs
                    (hla st.nextLinked (thash (.structT inner)))
                  exact h2
              | boolT => simp at h
              | u8 => simp at h
              | u64 => simp at h
              | u128 => simp at h
              | addressT => simp at h
              | signerT => simp at h

theorem mtss_preserves (linkAlloc : Nat → Nat → Nat) (thash : MoveType → Nat)
    (a : Nat) (hla : ∀ i h, a < linkAlloc i h) :
    ∀ (fuel : Nat) (fields : List MoveType) (src dst : Nat) (st st1 : EvmSt),
      moveStructToStorage linkAlloc thash fuel fields src dst st = .ok st1 →
      a < dst → st1.storage.get a = st.storage.get a :=
  fun fuel => (mtss_pres_all linkAlloc thash a hla fuel).1

/-- A successful `move_struct_to_storage` records the `Free` of the source
memory block of the struct's full layout size. -/
theorem mtss_freed (linkAlloc : Nat → Nat → Nat) (thash : MoveType → Nat)
    (fuel : Nat) (fields : List MoveType) (src dst : Nat) (st st1 : EvmSt)
    (h : moveStructToStorage linkAlloc thash fuel fields src dst st = .ok st1) :
    (src, (structLayoutOf fields).size) ∈ st1.freed := by
  cases fuel with
  | zero => rw [moveStructToStorage] at h; simp at h
  | succ g =>
    rw [moveStructToStorage] at h
    split at h
    · simp at h
    · split at h
      · simp at h
      · rename_i sts hsc
        have hst1 : st1 = { sts with
            freed := sts.freed ++ [(src, (structLayoutOf fields).size)] } := by
          cases h; rfl
        rw [hst1]
        simp

/-- C3: the code emitted by `move_to` first loads the existence flag at the
storage base offset; if the flag is set it aborts before writing anything
(first conjunct, for any state and any fuel); otherwise (a successful run
implies the flag was clear) it sets the flag, migrates the struct to storage,
and records the `Free` of the source memory block — and a second `move_to` on
the same (type, address), hence the same storage base, without an intervening
`move_from` aborts at the flag check.  The hypothesis on `linkAlloc` says
linked storage regions allocated by `NewLinkedStorageBase` lie past the
resource's base slot. -/
theorem c3_move_to_duplicate_aborts (linkAlloc : Nat → Nat → Nat) (thash : MoveType → Nat)
    (fuel : Nat) (fields : List MoveType) (base src : Nat) (st st1 : EvmSt)
    (hla : ∀ i h, base < linkAlloc i h)
    (hok : moveToStorage linkAlloc thash fuel fields base src st = .ok st1) :
    (∀ (st0 : EvmSt) (src2 fuel2 : Nat), st0.storage.get base ≠ 0 →
        moveToStorage linkAlloc thash fuel2 fields base src2 st0 = .error .abortRuntime) ∧
    st.storage.get base = 0 ∧
    st1.storage.get base = 1 ∧
    (src, (structLayoutOf fields).size) ∈ st1.freed ∧
    (∀ src2 fuel2,
        moveToStorage linkAlloc thash fuel2 fields base src2 st1 = .error .abortRuntime) := by
  have habort : ∀ (st0 : EvmSt) (src2 fuel2 : Nat), st0.storage.get base ≠ 0 →
      moveToStorage linkAlloc thash fuel2 fields base src2 st0 = .error .abortRuntime := by
    intro st0 src2 fuel2 h0
    unfold moveToStorage
    rw [if_pos h0]
  have hflag0 : st.storage.get base = 0 := by
    by_contra hc
    rw [habort st src fuel hc] at hok
    simp at hok
  have hmig : moveStructToStorage linkAlloc thash fuel fields src (base + 32)
      { st with storage := st.storage.set base 1 } = .ok st1 := by
    unfold moveToStorage at hok
    rw [if_neg (by simp [hflag0])] at hok
    exact hok
  have hflag1 : st1.storage.get base = 1 := by
    rw [mtss_preserves linkAlloc thash base hla fuel fields src (base + 32) _ st1 hmig
      (by omega)]
    show (st.storage.set base 1).get base = 1
    rw [Store.get_set, if_pos rfl]
  refine ⟨habort, hflag0, hflag1, ?_, ?_⟩
  · exact mtss_freed linkAlloc thash fuel fields src (base + 32) _ st1 hmig
  · intro src2 fuel2
    exact habort st1 src2 fuel2 (by rw [hflag1]; omega)

/-- Concrete inputs for evaluating `move_to`: a struct with one nested-struct
field and one `u64` field, stored at base slot 64 from memory address 512, in
an initially empty world where linked storage bases are allocated from
1000 + 100·i. -/
def mtInitialState : EvmSt := ⟨[], [], 0, 0, [], []⟩

def mtResultState : EvmSt :=
  ((moveToStorage (fun i _ => 1000 + 100 * i) (fun _ => 7) 3
      [MoveType.structT [MoveType.u8], MoveType.u64] 64 512 mtInitialState).toOption).getD
    mtInitialState

/-- Witness for C3 at the concrete inputs: the first `move_to` succeeds, sets
the existence flag, frees the source block, and a second `move_to` at the same
base aborts. -/
theorem c3_move_to_duplicate_aborts_witness :
    moveToStorage (fun i _ => 1000 + 100 * i) (fun _ => 7) 3
        [MoveType.structT [MoveType.u8], MoveType.u64] 64 512 mtInitialState =
      .ok mtResultState ∧
    mtResultState.storage.get 64 = 1 ∧
    (512, (structLayoutOf [MoveType.structT [MoveType.u8], MoveType.u64]).size) ∈
      mtResultState.freed ∧
    moveToStorage (fun i _ => 1000 + 100 * i) (fun _ => 7) 3
        [MoveType.structT [MoveType.u8], MoveType.u64] 64 640 mtResultState =
      .error .abortRuntime := by
  have hok : moveToStorage (fun i _ => 1000 + 100 * i) (fun _ => 7) 3
      [MoveType.structT [MoveType.u8], MoveType.u64] 64 512 mtInitialState =
      .ok mtResultState := by rfl
  have h := c3_move_to_duplicate_aborts (fun i _ => 1000 + 100 * i) (fun _ => 7) 3
    [MoveType.structT [MoveType.u8], MoveType.u64] 64 512 mtInitialState mtResultState
    (by intro i hh; show (64 : Nat) < 1000 + 100 * i; omega) hok
  exact ⟨hok, h.2.2.1, h.2.2.2.1, h.2.2.2.2 640 3⟩

/-! ## `move_from` (`Generator::move_from` / `Generator::move_struct_to_memory`)

`move_from` emits: `if not(StorageLoadU8($base_offset)) { AbortBuiltin() }`,
then `StorageStoreU8($base_offset, false)`, then the recursive
storage-to-memory migration from `base + 32`.  `not` here is the plain Yul
builtin — the target machine's 256-bit bitwise negation — not `iszero`. -/

/-- The word-by-word scalar loop of `move_struct_to_memory`: while
`offs < size`, copy the storage word at `src + offs` into memory at
`dst + offs`, then zero the vacated storage word (for the refund). -/
def memCopyZeroWords (src dst : Nat) (offs size : Nat) (st : EvmSt) : EvmSt :=
  if h : offs < size then
    memCopyZeroWords src dst (offs + 32) size
      { st with
          memory := st.memory.set (dst + offs) (st.storage.get (src + offs)),
          storage := st.storage.set (src + offs) 0 }
  else st
termination_by size - offs
decreasing_by omega

/-- The scalar part of `move_struct_to_memory`. -/
def mtmScalar (L : StructLayout) (src dst : Nat) (st : EvmSt) : Except SemErr EvmSt :=
  if L.pointerCount < L.fieldOrder.length then
    match offsetLookup L (L.fieldOrder.getD L.pointerCount 0) with
    | none => .error .internal
    | some (offs0, _) =>
      if offs0 % 32 ≠ 0 then .error .internal
      else .ok (memCopyZeroWords src dst offs0 L.size st)
  else .ok st

mutual

/-- `Generator::move_struct_to_memory`: allocate a fresh memory block of the
layout's size, pull the pointer fields out of their linked storage slots
recursively (zeroing the vacated slot words), then copy the scalar fields word
by word with the same zeroing; returns the fresh block's address. -/
def moveStructToMemory (memAlloc : Nat → Nat) :
    Nat → List MoveType → Nat → EvmSt → Except SemErr (Nat × EvmSt)
  | 0, _, _, _ => .error .internal
  | fuel + 1, fields, src, st =>
    match mtmPtr memAlloc (structLayoutOf fields) fuel
        ((structLayoutOf fields).fieldOrder.take (structLayoutOf fields).pointerCount)
        src (memAlloc st.nextMem)
        { st with nextMem := st.nextMem + 1,
                  mallocs := st.mallocs ++ [(memAlloc st.nextMem,
                    (structLayoutOf fields).size)] } with
    | .error e => .error e
    | .ok st1 =>
      match mtmScalar (structLayoutOf fields) src (memAlloc st.nextMem) st1 with
      | .error e => .error e
      | .ok st2 => .ok (memAlloc st.nextMem, st2)

/-- The pointer-field loop of `move_struct_to_memory`: per leading pointer
field, skip vectors with a diagnostic; for struct fields load the linked
storage base, recursively move it to memory, store the fresh pointer at the
field's memory slot, and zero the vacated storage word. -/
def mtmPtr (memAlloc : Nat → Nat) (L : StructLayout) :
    Nat → List Nat → Nat → Nat → EvmSt → Except SemErr EvmSt
  | _, [], _, _, st => .ok st
  | 0, _ :: _, _, _, _ => .error .internal
  | fuel + 1, fo :: rest, src, dst, st =>
    match offsetLookup L fo with
    | none => .error .internal
    | some (byteOffs, ty) =>
      if byteOffs % 32 ≠ 0 then .error .internal
      else
        match ty with
        | .vectorT _ => mtmPtr memAlloc L fuel rest src dst st
        | .structT inner =>
          match moveStructToMemory memAlloc fuel inner (st.storage.get (src + byteOffs)) st with
          | .error e => .error e
          | .ok (linkedDst, st2) =>
            mtmPtr memAlloc L fuel rest src dst
              { st2 with
                  memory := st2.memory.set (dst + byteOffs) linkedDst,
                  storage := st2.storage.set (src + byteOffs) 0 }
        | _ => .error .internal

end

/-- `Generator::move_from`: the emitted code is
`if not(StorageLoadU8($base_offset)) { AbortBuiltin() }`, then
`StorageStoreU8($base_offset, false)`, then the migration of the data starting
at `base + 32` into fresh memory. -/
def moveFromStorage (memAlloc : Nat → Nat) (fuel : Nat) (fields : List MoveType)
    (base : Nat) (st : EvmSt) : Except SemErr (Nat × EvmSt) :=
  if yulNot (st.storage.get base) ≠ 0 then .error .abortRuntime
  else
    moveStructToMemory memAlloc fuel fields (base + 32)
      { st with storage := st.storage.set base 0 }

/-- C4 (evaluating the code at the failing input): because the emitted guard is
`if not($exists)` with Yul's bitwise `not` — so the condition is nonzero for
every flag value other than the all-ones word — the code emitted by `move_from`
aborts at runtime not only when the existence flag is unset (the claimed
behaviour) but also when the flag is set to the stored `true` (1): it never
reaches the flag-clearing, allocation, migration or zeroing code. -/
theorem c4_move_from_always_aborts (memAlloc : Nat → Nat) (fuel : Nat)
    (fields : List MoveType) (base : Nat) (st : EvmSt)
    (h : st.storage.get base % 2 ^ 256 ≠ 2 ^ 256 - 1) :
    moveFromStorage memAlloc fuel fields base st = .error .abortRuntime := by
  have hc : yulNot (st.storage.get base) ≠ 0 := by
    unfold yulNot
    have hm : st.storage.get base % 2 ^ 256 < 2 ^ 256 :=
      Nat.mod_lt _ (by positivity)
    omega
  unfold moveFromStorage
  rw [if_pos hc]

/-- Witness for C4: with the existence flag set to 1 at base slot 64 — exactly
the state a successful `move_to` leaves — the emitted `move_from` code aborts
instead of migrating. -/
theorem c4_move_from_always_aborts_witness :
    moveFromStorage (fun i => 2000 + 100 * i) 3 [MoveType.u64] 64
        ⟨[(64, 1)], [], 0, 0, [], []⟩ = .error .abortRuntime :=
  c4_move_from_always_aborts (fun i => 2000 + 100 * i) 3 [MoveType.u64] 64
    ⟨[(64, 1)], [], 0, 0, [], []⟩ (by decide)

/-! ## Type hashing and collision detection
    (`Generator::type_hash`, `Context::mangle_type` / `mangle_struct` /
     `mangle_types` / `make_contract_name`)

The mangling is the canonical textual form of a type; `type_hash` feeds its
bytes to a fixed cryptographic hash (Keccak-256 from the external `sha3`
crate, modelled here as an abstract digest function `H : String → List Nat`
returning bytes) and keeps the first four digest bytes as a little-endian
`u32`.  The `type_sig_map` records which type owns each hash; inserting a
second, different type under an existing hash reports a collision error. -/

/-- `move_model::ty::Type` as observed by the mangler: primitive names,
vectors, structs (with the owning module's address and name, the struct name,
and the instantiation), and a catch-all for the unsupported constructors which
mangle to a `<<unsupported ...>>` marker. -/
inductive SigType where
  | u8
  | u64
  | u128
  | num
  | addressT
  | signerT
  | boolT
  | rangeT
  | vector (elem : SigType)
  | structT (addr moduleName structName : String) (inst : List SigType)
  | unsupportedT (dbg : String)

mutual

/-- `Context::mangle_type`.  For vectors the source calls
`mangle_types(&[et])`, which on the one-element list always yields
`"$" ++ mangle_type(et) ++ "$"`; that equal form is inlined here, as is the
body of `mangle_types` in the struct case (see `mangleTypes` below and
`mangleType_structT`). -/
def mangleType : SigType → String
  | .u8 => "u8"
  | .u64 => "u64"
  | .u128 => "u128"
  | .num => "num"
  | .addressT => "address"
  | .signerT => "signer"
  | .boolT => "bool"
  | .rangeT => "range"
  | .vector et => "vec" ++ ("$" ++ mangleType et ++ "$")
  | .structT addr moduleName structName inst =>
    "A" ++ addr ++ "_" ++ moduleName ++ "_" ++ structName ++
      (match inst with
       | [] => ""
       | _ :: _ => "$" ++ mangleTypesGo inst ++ "$")
  | .unsupportedT dbg => "<<unsupported " ++ dbg ++ ">>"

/-- The mangled types joined by `_` (the `join("_")` of `mangle_types`). -/
def mangleTypesGo : List SigType → String
  | [] => ""
  | [t] => mangleType t
  | t :: u :: rest => mangleType t ++ "_" ++ mangleTypesGo (u :: rest)

end

/-- `Context::mangle_types`: empty instantiation mangles to the empty string,
otherwise to the mangled types joined by `_` between `$` markers. -/
def mangleTypes : List SigType → String
  | [] => ""
  | l@(_ :: _) => "$" ++ mangleTypesGo l ++ "$"

/-- The struct case of `mangle_type` agrees with
`make_contract_name ++ "_" ++ struct name ++ mangle_types inst`. -/
theorem mangleType_structT (addr moduleName structName : String) (inst : List SigType) :
    mangleType (.structT addr moduleName structName inst) =
      "A" ++ addr ++ "_" ++ moduleName ++ "_" ++ structName ++ mangleTypes inst := by
  cases inst <;> rfl

mutual

/-- Structural equality of mangler types (the `old_ty != *ty` comparison). -/
def sigBeq : SigType → SigType → Bool
  | .u8, .u8 => true
  | .u64, .u64 => true
  | .u128, .u128 => true
  | .num, .num => true
  | .addressT, .addressT => true
  | .signerT, .signerT => true
  | .boolT, .boolT => true
  | .rangeT, .rangeT => true
  | .vector a, .vector b => sigBeq a b
  | .structT a1 m1 s1 i1, .structT a2 m2 s2 i2 =>
    a1 == a2 && m1 == m2 && s1 == s2 && sigBeqList i1 i2
  | .unsupportedT d1, .unsupportedT d2 => d1 == d2
  | _, _ => false

def sigBeqList : List SigType → List SigType → Bool
  | [], [] => true
  | x :: xs, y :: ys => sigBeq x y && sigBeqList xs ys
  | _, _ => false

end

/-- The generator state relevant to `type_hash`: the hash-to-type map and the
collision diagnostics reported so far (each entry lists the new and the old
type, as in the emitted error message). -/
structure THState where
  typeSigMap : List (Nat × SigType)
  collisions : List (SigType × SigType)

def thLookup (m : List (Nat × SigType)) (h : Nat) : Option SigType :=
  (m.find? (fun p => p.1 == h)).map (fun p => p.2)

/-- `BTreeMap::insert`: replace the binding if the key is present, else add it. -/
def thInsert (m : List (Nat × SigType)) (h : Nat) (ty : SigType) : List (Nat × SigType) :=
  if m.any (fun p => p.1 == h) then m.map (fun p => if p.1 == h then (h, ty) else p)
  else m ++ [(h, ty)]

/-- `u32::from_le_bytes([digest[0], digest[1], digest[2], digest[3]])`: the
hash is the first four digest bytes read little-endian. -/
def bytesToU32LE (digest : List Nat) : Nat :=
  digest.getD 0 0 + 256 * digest.getD 1 0 + 65536 * digest.getD 2 0 +
    16777216 * digest.getD 3 0

/-- `Generator::type_hash`: hash the mangled signature, truncate to 4 bytes,
record the hash-to-type binding, and report a collision error when the hash
was already bound to a different type. -/
def typeHashGen (H : String → List Nat) (st : THState) (ty : SigType) : Nat × THState :=
  match thLookup st.typeSigMap (bytesToU32LE (H (mangleType ty))) with
  | some oldTy =>
    if sigBeq oldTy ty then
      (bytesToU32LE (H (mangleType ty)),
       { typeSigMap := thInsert st.typeSigMap (bytesToU32LE (H (mangleType ty))) ty,
         collisions := st.collisions })
    else
      (bytesToU32LE (H (mangleType ty)),
       { typeSigMap := thInsert st.typeSigMap (bytesToU32LE (H (mangleType ty))) ty,
         collisions := st.collisions ++ [(ty, oldTy)] })
  | none =>
    (bytesToU32LE (H (mangleType ty)),
     { typeSigMap := thInsert st.typeSigMap (bytesToU32LE (H (mangleType ty))) ty,
       collisions := st.collisions })

theorem getD_take_eq (l : List α) (d : α) : ∀ (n i : Nat), i < n →
    (l.take n).getD i d = l.getD i d := by
  induction l with
  | nil => intro n i _; simp
  | cons a t ih =>
    intro n i hi
    cases n with
    | zero => omega
    | succ m =>
      cases i with
      | zero => simp
      | succ j =>
        simp only [List.take_succ_cons, List.getD_cons_succ]
        exact ih m j (by omega)

theorem getD_lt_of_bytes (l : List Nat) (hb : ∀ b ∈ l, b < 256) (i : Nat) :
    l.getD i 0 < 256 := by
  by_cases hi : i < l.length
  · exact hb _ (getD_mem l i 0 hi)
  · rw [List.getD_eq_default]
    · omega
    · omega

theorem typeHashGen_fst (H : String → List Nat) (st : THState) (ty : SigType) :
    (typeHashGen H st ty).1 = bytesToU32LE (H (mangleType ty)) := by
  unfold typeHashGen
  split
  · split <;> rfl
  · rfl

theorem thLookup_thInsert (m : List (Nat × SigType)) (h : Nat) (ty : SigType) :
    thLookup (thInsert m h ty) h = some ty := by
  unfold thInsert
  split
  · rename_i hany
    induction m with
    | nil => simp at hany
    | cons p rest ih =>
      cases hp : (p.1 == h) with
      | true =>
        unfold thLookup
        rw [List.map_cons]
        have hpe : (if (p.1 == h) = true then (h, ty) else p) = (h, ty) := by simp [hp]
        rw [hpe, List.find?_cons_of_pos _ (by simp)]
        rfl
      | false =>
        have hany2 : rest.any (fun q => q.1 == h) = true := by
          simp only [List.any_cons, hp, Bool.false_or] at hany
          exact hany
        have ihh := ih hany2
        unfold thLookup at ihh ⊢
        rw [List.map_cons]
        have hpe : (if (p.1 == h) = true then (h, ty) else p) = p := by simp [hp]
        rw [hpe, List.find?_cons_of_neg _ (by simp [hp])]
        exact ihh
  · rename_i hany
    induction m with
    | nil =>
      unfold thLookup
      rw [List.nil_append, List.find?_cons_of_pos _ (by simp)]
      rfl
    | cons p rest ih =>
      have hp : (p.1 == h) = false := by
        cases hx : (p.1 == h)
        · rfl
        · exact absurd (by simp [List.any_cons, hx]) hany
      have hany2 : ¬ rest.any (fun q => q.1 == h) = true := by
        intro hc
        exact hany (by simp [List.any_cons, hc])
      have ihh := ih hany2
      unfold thLookup at ihh ⊢
      rw [List.cons_append, List.find?_cons_of_neg _ (by simp [hp])]
      exact ihh

/-- C5: `type_hash` derives the storage/type hash by hashing the canonical
textual mangling of the type and truncating the digest to its first 4 bytes
(the result is invariant under changing the digest beyond byte 3, and is below
`2^32`), and a second distinct type mapping to an already-used hash within one
contract is detected via the type-hash map and reported as a compile error
(the collision diagnostic naming both types is appended), with the map binding
updated — never silently ignored. -/
theorem c5_type_hash_collision (H1 H2 : String → List Nat) (st : THState)
    (ty oldTy : SigType)
    (htr : (H1 (mangleType ty)).take 4 = (H2 (mangleType ty)).take 4)
    (hb : ∀ b ∈ H1 (mangleType ty), b < 256) :
    (typeHashGen H1 st ty).1 = (typeHashGen H2 st ty).1 ∧
    (typeHashGen H1 st ty).1 < 2 ^ 32 ∧
    (thLookup st.typeSigMap (typeHashGen H1 st ty).1 = some oldTy →
      sigBeq oldTy ty = false →
      (typeHashGen H1 st ty).2.collisions = st.collisions ++ [(ty, oldTy)] ∧
      thLookup (typeHashGen H1 st ty).2.typeSigMap (typeHashGen H1 st ty).1 = some ty) := by
  have hbytes : bytesToU32LE (H1 (mangleType ty)) = bytesToU32LE (H2 (mangleType ty)) := by
    unfold bytesToU32LE
    have h0 := getD_take_eq (H1 (mangleType ty)) 0 4 0 (by omega)
    have h1 := getD_take_eq (H1 (mangleType ty)) 0 4 1 (by omega)
    have h2 := getD_take_eq (H1 (mangleType ty)) 0 4 2 (by omega)
    have h3 := getD_take_eq (H1 (mangleType ty)) 0 4 3 (by omega)
    have g0 := getD_take_eq (H2 (mangleType ty)) 0 4 0 (by omega)
    have g1 := getD_take_eq (H2 (mangleType ty)) 0 4 1 (by omega)
    have g2 := getD_take_eq (H2 (mangleType ty)) 0 4 2 (by omega)
    have g3 := getD_take_eq (H2 (mangleType ty)) 0 4 3 (by omega)
    rw [← h0, ← h1, ← h2, ← h3, ← g0, ← g1, ← g2, ← g3, htr]
  refine ⟨?_, ?_, ?_⟩
  · rw [typeHashGen_fst, typeHashGen_fst, hbytes]
  · rw [typeHashGen_fst]
    unfold bytesToU32LE
    have b0 := getD_lt_of_bytes _ hb 0
    have b1 := getD_lt_of_bytes _ hb 1
    have b2 := getD_lt_of_bytes _ hb 2
    have b3 := getD_lt_of_bytes _ hb 3
    omega
  · intro hl hne
    rw [typeHashGen_fst] at hl
    unfold typeHashGen
    rw [hl]
    simp only []
    rw [hne]
    rw [if_neg (by simp)]
    exact ⟨rfl, thLookup_thInsert st.typeSigMap _ ty⟩

/-- Witness for C5: the constant digest `[7,0,0,0]` collides the distinct
types `u8` and `u64`; the collision is recorded. -/
theorem c5_type_hash_collision_witness :
    (typeHashGen (fun _ => [7, 0, 0, 0]) ⟨[(7, SigType.u64)], []⟩ SigType.u8).1 =
      (typeHashGen (fun _ => [7, 0, 0, 0]) ⟨[(7, SigType.u64)], []⟩ SigType.u8).1 ∧
    (typeHashGen (fun _ => [7, 0, 0, 0]) ⟨[(7, SigType.u64)], []⟩ SigType.u8).1 < 2 ^ 32 ∧
    (thLookup [(7, SigType.u64)]
        (typeHashGen (fun _ => [7, 0, 0, 0]) ⟨[(7, SigType.u64)], []⟩ SigType.u8).1 =
        some SigType.u64 →
      sigBeq SigType.u64 SigType.u8 = false →
      (typeHashGen (fun _ => [7, 0, 0, 0]) ⟨[(7, SigType.u64)], []⟩ SigType.u8).2.collisions =
        [] ++ [(SigType.u8, SigType.u64)] ∧
      thLookup
        (typeHashGen (fun _ => [7, 0, 0, 0]) ⟨[(7, SigType.u64)], []⟩ SigType.u8).2.typeSigMap
        (typeHashGen (fun _ => [7, 0, 0, 0]) ⟨[(7, SigType.u64)], []⟩ SigType.u8).1 =
        some SigType.u8) :=
  c5_type_hash_collision (fun _ => [7, 0, 0, 0]) (fun _ => [7, 0, 0, 0])
    ⟨[(7, SigType.u64)], []⟩ SigType.u8 SigType.u64 rfl
    (by intro b hbm; simp at hbm; omega)

/-! ## The function translator and per-contract orchestration
    (`Generator::function`, `Generator::bytecode`,
     `Generator::collect_borrowed_locals`, `Generator::move_call`,
     `Generator::callable_functions`, `Generator::optional_creator`,
     `Generator::begin_code_block`, `Generator::end_code_block`,
     `Generator::contract`)

Instead of a `CodeWriter` producing text, emission is modelled as producing an
abstract syntax tree of Yul statements; every formatted string of the source
corresponds to one constructor.  The `// ...` bytecode comments and `@src`
annotations the source interleaves are plain comments in the output and are
omitted.  Call targets are tagged: raw Yul primitives (`mload`, `sload`, ...),
catalog builtins (`YulFunction`), and generated Move functions.
`make_local_name`/`make_function_name` derive names from source symbols; they
are modelled by the injective canonical schemes `$t<i>` / `$f<i>`.  Bytecode
operations cover the representative subset the claims are about; the remaining
arithmetic operations are translated by the same two `builtin` closures
modelled here.  The `StacklessControlFlowGraph` is built by the external
`move-stackless-bytecode` crate; it enters the model as data (`CFG`), queried
through the same interface the generator uses (`blocks`, `entry_block`,
`successors`, `is_dummmy`, `content`). -/

/-- The catalog of generated builtin functions (`YulFunction`), restricted to
those reachable from the modelled operations. -/
inductive YulFun where
  | malloc
  | free
  | abortY
  | abortBuiltin
  | makePtr
  | addU8
  | addU64
  | addU128
  | addU256
  | subY
deriving DecidableEq

/-- `YulFunction::yule_name` (the bodies live in `yul_functions.rs`). -/
def yulName : YulFun → String
  | .malloc => "$Malloc"
  | .free => "$Free"
  | .abortY => "$Abort"
  | .abortBuiltin => "$AbortBuiltin"
  | .makePtr => "$MakePtr"
  | .addU8 => "$AddU8"
  | .addU64 => "$AddU64"
  | .addU128 => "$AddU128"
  | .addU256 => "$AddU256"
  | .subY => "$Sub"

/-- Modelled from the spec: each builtin declares its transitive dependencies
on other builtins; the dependency lists live in `yul_functions.rs` (absent
from the sources).  The claims settled here do not depend on the particular
lists, so the empty list is used throughout. -/
def yulDeps : YulFun → List YulFun := fun _ => []

/-- A call target in emitted Yul. -/
inductive CallTgt where
  | prim (s : String)
  | yul (f : YulFun)
  | move (fid : Nat)

/-- Emitted Yul expressions. -/
inductive YulExp where
  | varE (s : String)
  | litE (n : Nat)
  | boolE (b : Bool)
  | callE (t : CallTgt) (args : List YulExp)

/-- Emitted Yul statements.  `assignS` keeps its left-hand side as an
expression because the source formats an arbitrary string there (`local`),
which for borrowed locals is `mload(...)` — not a variable. -/
inductive YulStmt where
  | comment (s : String)
  | letDecl (names : List String)
  | letInit (names : List String) (rhs : YulExp)
  | assignS (lhs rhs : YulExp)
  | multiAssign (names : List String) (rhs : YulExp)
  | exprS (e : YulExp)
  | switchS (scrut : YulExp) (cases : List (Nat × List YulStmt)) (dflt : Option (List YulStmt))
  | forLoop (body : List YulStmt)
  | leave
  | blockS (body : List YulStmt)
  | funDef (name : String) (params results : List String) (body : List YulStmt)
  | yulDef (f : YulFun)
  | impossible (msg : String)

/-- `stackless_bytecode::Constant`, restricted to the scalar constants. -/
inductive Constant where
  | boolC (b : Bool)
  | u8C (n : Nat)
  | u64C (n : Nat)
  | u128C (n : Nat)
  | u256C (n : Nat)
  | addressC (n : Nat)

/-- Representative subset of `stackless_bytecode::Operation`. -/
inductive Operation where
  | oFunction (fid : Nat)
  | oBorrowLoc
  | oAdd
  | oSub

/-- Representative subset of `stackless_bytecode::Bytecode`. -/
inductive Bytecode where
  | jump (l : Nat)
  | branch (ifT ifF cond : Nat)
  | assignB (dest src : Nat)
  | load (dest : Nat) (c : Constant)
  | ret (results : List Nat)
  | abortB (code : Nat)
  | callB (dests : List Nat) (op : Operation) (srcs : List Nat)
  | label (l : Nat)
  | nop

/-- `stackless_control_flow_graph::BlockContent`. -/
inductive BlockContent where
  | basic (lower upper : Nat)
  | dummy

/-- The control-flow graph interface consumed by `Generator::function`. -/
structure CFG where
  blocks : List Nat
  entry : Nat
  succ : Nat → List Nat
  isDummy : Nat → Bool
  content : Nat → BlockContent

/-- One function's translation input (`FunctionTarget`). -/
structure FunTarget where
  paramCount : Nat
  returnCount : Nat
  localCount : Nat
  localTypes : List MoveType
  code : List Bytecode
  cfg : CFG

def dfltTarget : FunTarget :=
  ⟨0, 0, 0, [], [], ⟨[], 0, fun _ => [], fun _ => false, fun _ => .dummy⟩⟩

/-- A contract module: function targets indexed by function id, plus which
functions carry the `#[create]` and `#[callable]` attributes. -/
structure Program where
  funs : List FunTarget
  creators : List Nat
  callables : List Nat

/-- The generator's mutable state during contract emission. -/
structure GenState where
  neededMove : List Nat
  doneMove : List Nat
  neededYul : List YulFun
  borrowedLocals : List (Nat × Nat)
  assertLog : List (Bool × Bool)
  errors : List String

def emptyGenState : GenState := ⟨[], [], [], [], [], []⟩

/-- `Generator::need_yul_function`.  The dependency-closure loop is trivial
here because `yulDeps` is constantly empty. -/
def needYulFunction (st : GenState) (f : YulFun) : GenState :=
  if f ∈ st.neededYul then st else { st with neededYul := st.neededYul ++ [f] }

/-- `Generator::call_builtin_str`: record the builtin (and its dependencies)
as needed and build the call expression. -/
def callBuiltinStr (st : GenState) (f : YulFun) (args : List YulExp) : GenState × YulExp :=
  (needYulFunction st f, .callE (.yul f) args)

/-- `make_local_name`, modelled by an injective canonical scheme. -/
def localName (idx : Nat) : String := "$t" ++ toString idx

/-- `make_function_name`, modelled by the function id (see `CallTgt.move`). -/
def funName (fid : Nat) : String := "$f" ++ toString fid

/-- `make_result_name`. -/
def resultName (tgt : FunTarget) (idx : Nat) : String :=
  if tgt.returnCount = 1 then "$result" else "$result" ++ toString idx

/-- `Generator::local_ptr`: the memory slot of a borrowed local. -/
def localPtr (bl : List (Nat × Nat)) (idx : Nat) : Option YulExp :=
  (bl.find? (fun p => p.1 == idx)).map (fun p =>
    if p.2 = 0 then .varE "$locals"
    else .callE (.prim "add") [.varE "$locals", .litE (p.2 * 32)])

/-- The `local` closure in `Generator::bytecode`: a borrowed local reads
through `mload`, any other local is its plain name. -/
def localExp (bl : List (Nat × Nat)) (idx : Nat) : YulExp :=
  match localPtr bl idx with
  | some ptr => .callE (.prim "mload") [ptr]
  | none => .varE (localName idx)

/-- `Generator::assign`: a borrowed destination is written with `mstore`,
otherwise with a plain assignment. -/
def assignStmt (bl : List (Nat × Nat)) (dest : Nat) (src : YulExp) : YulStmt :=
  match localPtr bl dest with
  | some ptr => .exprS (.callE (.prim "mstore") [ptr, src])
  | none => .assignS (.varE (localName dest)) src

/-- `Generator::constant`. -/
def constantExp : Constant → YulExp
  | .boolC b => .boolE b
  | .u8C n => .litE n
  | .u64C n => .litE n
  | .u128C n => .litE n
  | .u256C n => .litE n
  | .addressC n => .litE n

/-- `BTreeMap::insert` on a `Nat → Nat` map. -/
def btreeInsertNat (m : List (Nat × Nat)) (k v : Nat) : List (Nat × Nat) :=
  if m.any (fun p => p.1 == k) then m.map (fun p => if p.1 == k then (k, v) else p)
  else m ++ [(k, v)]

/-- `Generator::collect_borrowed_locals`: scan the body for `BorrowLoc`
instructions, inserting the borrowed local with a running memory position
which is incremented on every `BorrowLoc` — also when the same local is
borrowed again and its previous entry is merely overwritten. -/
def collectBorrowedLocals (code : List Bytecode) : List (Nat × Nat) :=
  (code.foldl (fun (p : List (Nat × Nat) × Nat) bc =>
    match bc with
    | .callB _ .oBorrowLoc srcs => (btreeInsertNat p.1 (srcs.getD 0 0) p.2, p.2 + 1)
    | _ => p) ([], 0)).1

/-- The `builtin` closure in `Generator::bytecode`: emit
`{local(dest[0])} := {call_builtin_str(fun, locals(srcs))}`.  Note the
left-hand side goes through `local`, so when the destination is a borrowed
local the emitted left-hand side is `mload(...)`. -/
def builtinStmt (st : GenState) (bl : List (Nat × Nat)) (f : YulFun)
    (dests srcs : List Nat) : GenState × List YulStmt :=
  match callBuiltinStr st f (srcs.map (localExp bl)) with
  | (st1, call) => (st1, [.assignS (localExp bl (dests.getD 0 0)) call])

/-- The `builtin_typed` closure: dispatch on the primitive type of the first
source operand (u8/u64/u128, or the native U256 struct — the only struct that
can reach width dispatch on well-typed input); anything else panics. -/
def builtinTypedStmt (st : GenState) (bl : List (Nat × Nat)) (tgt : FunTarget)
    (f8 f64 f128 f256 : YulFun) (dests srcs : List Nat) : GenState × List YulStmt :=
  match tgt.localTypes.getD (srcs.getD 0 0) MoveType.boolT with
  | .u8 => builtinStmt st bl f8 dests srcs
  | .u64 => builtinStmt st bl f64 dests srcs
  | .u128 => builtinStmt st bl f128 dests srcs
  | .structT _ => builtinStmt st bl f256 dests srcs
  | _ => (st, [.impossible "unexpected operand type"])

/-- `Generator::move_call`: push the callee on the pending stack unless done,
then emit the call with destination handling: no destination, a single
destination through `assign`, or multiple destinations — binding all results
to temporaries first when any destination is a borrowed local. -/
def moveCallGen (st : GenState) (dests : List Nat) (fid : Nat) (args : List YulExp) :
    GenState × List YulStmt :=
  let st1 := if fid ∈ st.doneMove then st else { st with neededMove := fid :: st.neededMove }
  let callExp : YulExp := .callE (.move fid) args
  match dests with
  | [] => (st1, [.exprS callExp])
  | [d] => (st1, [assignStmt st.borrowedLocals d callExp])
  | _ =>
    if dests.any (fun idx => st.borrowedLocals.any (fun p => p.1 == idx)) then
      let tempNames := dests.enum.map (fun p =>
        if st.borrowedLocals.any (fun q => q.1 == p.2) then "$d" ++ toString p.1
        else localName p.2)
      let redistribute := dests.enum.filterMap (fun p =>
        if st.borrowedLocals.any (fun q => q.1 == p.2) then
          some (assignStmt st.borrowedLocals p.2 (.varE ("$d" ++ toString p.1)))
        else none)
      (st1, [.blockS ([.letInit tempNames callExp] ++ redistribute)])
    else
      (st1, [.multiAssign (dests.map localName) callExp])

/-- `Generator::compute_label_map`. -/
def computeLabelMap (cfg : CFG) (code : List Bytecode) : List (Nat × Nat) :=
  cfg.blocks.foldl (fun m id =>
    match cfg.content id with
    | .basic lower _ =>
      match code.getD lower .nop with
      | .label l => btreeInsertNat m l id
      | _ => m
    | .dummy => m) []

def lookupLabel (m : List (Nat × Nat)) (l : Nat) : Option Nat :=
  (m.find? (fun p => p.1 == l)).map (fun p => p.2)

/-- `Generator::bytecode`: translate one stackless instruction. -/
def translateBytecode (st : GenState) (tgt : FunTarget) (labelMap : List (Nat × Nat))
    (bc : Bytecode) (hasFlow : Bool) : GenState × List YulStmt :=
  match bc with
  | .jump l =>
    match lookupLabel labelMap l with
    | some blk => (st, [.assignS (.varE "$block") (.litE blk)])
    | none => (st, [.impossible "label has corresponding block"])
  | .branch ifT ifF cond =>
    match lookupLabel labelMap ifT, lookupLabel labelMap ifF with
    | some bT, some bF =>
      (st, [.switchS (localExp st.borrowedLocals cond)
              [(0, [.assignS (.varE "$block") (.litE bF)])]
              (some [.assignS (.varE "$block") (.litE bT)])])
    | _, _ => (st, [.impossible "label has corresponding block"])
  | .assignB dest src =>
    (st, [assignStmt st.borrowedLocals dest (localExp st.borrowedLocals src)])
  | .load dest c =>
    -- faithful to the source: the left-hand side goes through `local`
    (st, [.assignS (localExp st.borrowedLocals dest) (constantExp c)])
  | .ret results =>
    let resStmts := results.enum.map (fun p =>
      YulStmt.assignS (.varE (resultName tgt p.1)) (localExp st.borrowedLocals p.2))
    if st.borrowedLocals.isEmpty then
      (st, resStmts ++ (if hasFlow then [.leave] else []))
    else
      match callBuiltinStr st .free
          [.varE "$locals", .litE (st.borrowedLocals.length * 32)] with
      | (st1, freeCall) =>
        (st1, resStmts ++ [.exprS freeCall] ++ (if hasFlow then [.leave] else []))
  | .abortB code =>
    match callBuiltinStr st .abortY [localExp st.borrowedLocals code] with
    | (st1, c) => (st1, [.exprS c])
  | .callB dests op srcs =>
    match op with
    | .oFunction fid => moveCallGen st dests fid (srcs.map (localExp st.borrowedLocals))
    | .oBorrowLoc =>
      match localPtr st.borrowedLocals (srcs.getD 0 0) with
      | some ptr =>
        match callBuiltinStr st .makePtr [.boolE false, ptr] with
        | (st1, c) => (st1, [.assignS (.varE (localName (dests.getD 0 0))) c])
      | none => (st, [.impossible "local evaded to memory"])
    | .oAdd => builtinTypedStmt st st.borrowedLocals tgt .addU8 .addU64 .addU128 .addU256
        dests srcs
    | .oSub => builtinStmt st st.borrowedLocals .subY dests srcs
  | .label _ => (st, [])
  | .nop => (st, [])

/-- Translate the instructions at offsets `lower..upper` of a basic block, in
order (`for offs in *lower..*upper + 1`). -/
def translateRange (st : GenState) (tgt : FunTarget) (labelMap : List (Nat × Nat))
    (lo hi : Nat) (hasFlow : Bool) : GenState × List YulStmt :=
  (List.range' lo (hi + 1 - lo)).foldl
    (fun (acc : GenState × List YulStmt) offs =>
      match translateBytecode acc.1 tgt labelMap (tgt.code.getD offs .nop) hasFlow with
      | (st2, stmts) => (st2, acc.2 ++ stmts)) (st, [])

/-- `Generator::get_actual_entry_block`: skip dummy lead-in blocks (each
asserted to have exactly one successor); fuelled since the loop's termination
relies on the CFG being well formed. -/
def getActualEntryBlock (cfg : CFG) : Nat → Nat → Option Nat
  | 0, _ => none
  | fuel + 1, b =>
    if cfg.isDummy b then
      match cfg.succ b with
      | [s] => getActualEntryBlock cfg fuel s
      | _ => none
    else some b

/-- The case-emission loop of the state machine: one `case` per basic block
of the CFG, holding the translation of its instruction range. -/
def switchCasesFold (tgt : FunTarget) (labelMap : List (Nat × Nat)) (blocks : List Nat)
    (acc : GenState × List (Nat × List YulStmt)) : GenState × List (Nat × List YulStmt) :=
  blocks.foldl (fun acc blk =>
    match tgt.cfg.content blk with
    | .basic lo hi =>
      match translateRange acc.1 tgt labelMap lo hi true with
      | (st3, stmts) => (st3, acc.2 ++ [(blk, stmts)])
    | .dummy => acc) acc

/-- The control-flow emission of `Generator::function`: straight-line code
when every successor of the actual entry block is a dummy block, otherwise the
`$block` variable, the unconditional loop, and the single switch with one case
per basic block. -/
def stateMachineStmts (st : GenState) (tgt : FunTarget) : GenState × List YulStmt :=
  match getActualEntryBlock tgt.cfg (tgt.cfg.blocks.length + 1) tgt.cfg.entry with
  | none => (st, [.impossible "entry"])
  | some entry =>
    if (tgt.cfg.succ entry).all tgt.cfg.isDummy then
      match tgt.cfg.content entry with
      | .basic lo hi => translateRange st tgt (computeLabelMap tgt.cfg tgt.code) lo hi false
      | .dummy => (st, [.impossible "effective entry block is not basic"])
    else
      match switchCasesFold tgt (computeLabelMap tgt.cfg tgt.code) tgt.cfg.blocks (st, []) with
      | (st2, cases) =>
        (st2, [.letInit ["$block"] (.litE entry),
               .forLoop [.switchS (.varE "$block") cases none]])

/-- The `let {locals}` declaration of `Generator::function`: the locals that
are not parameters, filtered to those not evaded to memory. -/
def localsDeclStmts (tgt : FunTarget) (bl : List (Nat × Nat)) : List YulStmt :=
  let locals := ((List.range' tgt.paramCount (tgt.localCount - tgt.paramCount)).filter
    (fun idx => !bl.any (fun p => p.1 == idx))).map localName
  if locals.isEmpty then [] else [.letDecl locals]

/-- The `$locals` region allocation of `Generator::function`: when any local
is borrowed, `Malloc` one word per entry of the borrowed-locals map and
initialize the slots of evaded parameters from the Yul parameters. -/
def allocLocalsStmts (st : GenState) (bl : List (Nat × Nat)) (pc : Nat) :
    GenState × List YulStmt :=
  if bl.isEmpty then (st, [])
  else
    match callBuiltinStr st .malloc [.litE (bl.length * 32)] with
    | (stx, mallocCall) =>
      (stx, [.letInit ["$locals"] mallocCall] ++
        bl.filterMap (fun p =>
          if p.1 < pc then
            some (.exprS (.callE (.prim "mstore")
              [(localPtr bl p.1).getD (.varE "$locals"), .varE (localName p.1)]))
          else none))

/-- `Generator::function`: mark the function done, emit its header, declare
the non-evaded locals, allocate (and initialize from parameters) the `$locals`
memory region when any local is borrowed, and emit the control-flow body. -/
def functionGen (P : Program) (st : GenState) (fid : Nat) : GenState × List YulStmt :=
  let st0 := { st with doneMove :=
    if fid ∈ st.doneMove then st.doneMove else st.doneMove ++ [fid] }
  let tgt := P.funs.getD fid dfltTarget
  let bl := collectBorrowedLocals tgt.code
  let st1 := { st0 with borrowedLocals := bl }
  let alloc := allocLocalsStmts st1 bl tgt.paramCount
  let body := stateMachineStmts alloc.1 tgt
  (body.1, [.funDef (funName fid) ((List.range tgt.paramCount).map localName)
    ((List.range tgt.returnCount).map (resultName tgt))
    (localsDeclStmts tgt bl ++ alloc.2 ++ body.2)])

/-- The drain loop of `Generator::end_code_block` over the full emission model
(fuelled; `endCodeBlockDrain` above proves the loop total in the abstract
queue model). -/
def drainLoop (P : Program) : Nat → GenState → GenState × List YulStmt
  | 0, st => (st, [.impossible "drain fuel"])
  | fuel + 1, st =>
    match st.neededMove with
    | [] => (st, [])
    | fid :: rest =>
      if fid ∈ st.doneMove then drainLoop P fuel { st with neededMove := rest }
      else
        match functionGen P { st with neededMove := rest } fid with
        | (st1, stmts) =>
          match drainLoop P fuel st1 with
          | (st2, more) => (st2, stmts ++ more)

/-- `Generator::begin_code_block`: the two assertions
(`needed_move_functions.is_empty()` and `needed_yul_functions.is_empty()`) are
recorded in `assertLog`. -/
def beginCodeBlockGen (st : GenState) : GenState :=
  { st with assertLog := st.assertLog ++ [(st.neededMove.isEmpty, st.neededYul.isEmpty)] }

/-- `Generator::end_code_block`: drain the pending Move functions, then emit a
definition for every needed Yul function.  The `needed_yul_functions` set is
iterated but not cleared. -/
def endCodeBlockGen (P : Program) (fuel : Nat) (st : GenState) : GenState × List YulStmt :=
  match drainLoop P fuel st with
  | (st1, stmts) => (st1, stmts ++ st1.neededYul.map (fun f => .yulDef f))

/-- `Generator::callable_functions`: dummy reference calls (arguments fed from
`sload`, results sunk into `sstore`) followed by the definitions of all
callables.  No dispatcher, marshalling, or call-value check is generated
(marked TODO in the source).  This is one callable's dummy reference call:
arguments fed from `sload`, results bound to `$dummy{i}` and sunk into
`sstore`; `k` is the running dummy counter. -/
def dummyCallStmts (P : Program) (k fid : Nat) : Nat × List YulStmt :=
  let tgt := P.funs.getD fid dfltTarget
  let n := tgt.returnCount
  let dummyNames := (List.range n).map (fun i => "$dummy" ++ toString (k + i))
  let callExp : YulExp := .callE (.move fid)
    ((List.range tgt.paramCount).map (fun i => .callE (.prim "sload") [.litE (100 + k + i)]))
  let callStmt : List YulStmt :=
    if n > 0 then [.letInit dummyNames callExp] else [.exprS callExp]
  let stores : List YulStmt := (List.range n).map (fun i =>
    .exprS (.callE (.prim "sstore")
      [.litE (200 + k + i), .varE ("$dummy" ++ toString (k + i))]))
  (k + n, callStmt ++ stores)

/-- `Generator::callable_functions`: all the dummy reference calls, then the
definitions of all callables.  No dispatcher, marshalling, or call-value
check is generated. -/
def callableFunctionsGen (P : Program) (st : GenState) : GenState × List YulStmt :=
  let dummyStmts := (P.callables.foldl (fun (acc : Nat × List YulStmt) fid =>
    match dummyCallStmts P acc.1 fid with
    | (n2, stmts) => (n2, acc.2 ++ stmts)) (0, [])).2
  P.callables.foldl (fun (acc : GenState × List YulStmt) fid =>
    match functionGen P acc.1 fid with
    | (st2, stmts) => (st2, acc.2 ++ stmts)) (st, dummyStmts)

/-- `Generator::optional_creator`: more than one `#[create]` function is an
error; the last one (in `Vec::pop` order) is translated; its invocation is a
TODO comment. -/
def optionalCreatorGen (P : Program) (st : GenState) : GenState × List YulStmt :=
  let st1 := if P.creators.length > 1 then
    { st with errors := st.errors ++ ["multiple #[create] functions"] } else st
  match P.creators.getLast? with
  | some fid =>
    match functionGen P st1 fid with
    | (st2, stmts) => (st2, stmts ++ [.comment "TODO: invocation"])
  | none => (st1, [])

/-- The two code blocks `Generator::contract` emits for one module. -/
structure ContractOut where
  finalState : GenState
  deployStmts : List YulStmt
  runtimeStmts : List YulStmt

/-- `Generator::contract`: the deployment code block (codecopy of the runtime
object, optional creator, return) and the runtime code block (memory guard
initialization, callable functions), each between `begin_code_block` and
`end_code_block`. -/
def contractGen (P : Program) (fuel : Nat) : ContractOut :=
  let st1 := beginCodeBlockGen emptyGenState
  let codecopyStmt : YulStmt := .exprS (.callE (.prim "codecopy")
    [.litE 0, .callE (.prim "dataoffset") [.varE "$deployed"],
     .callE (.prim "datasize") [.varE "$deployed"]])
  match optionalCreatorGen P st1 with
  | (st2, creatorStmts) =>
    let returnStmt : YulStmt := .exprS (.callE (.prim "return")
      [.litE 0, .callE (.prim "datasize") [.varE "$deployed"]])
    match endCodeBlockGen P fuel st2 with
    | (st3, deployTail) =>
      let deploy := [codecopyStmt] ++ creatorStmts ++ [returnStmt] ++ deployTail
      let st4 := beginCodeBlockGen st3
      let memGuard : YulStmt := .exprS (.callE (.prim "mstore")
        [.litE 64, .callE (.prim "memoryguard") [.litE 160]])
      match callableFunctionsGen P st4 with
      | (st5, callableStmts) =>
        match endCodeBlockGen P fuel st5 with
        | (st6, runtimeTail) =>
          ⟨st6, deploy, [memGuard] ++ callableStmts ++ runtimeTail⟩

/-! ### C10, C8, C7: evaluating the generator at failing inputs -/

/-- A contract module with a single `#[create]` function whose body performs a
`u64` addition (so its translation needs the `AddU64` builtin) and no
callables. -/
def c10Program : Program :=
  { funs := [⟨0, 0, 2, [MoveType.u64, MoveType.u64],
      [.load 0 (.u64C 1), .load 1 (.u64C 2), .callB [0] .oAdd [0, 1], .ret []],
      ⟨[0], 0, fun _ => [], fun _ => false, fun b => if b = 0 then .basic 0 3 else .dummy⟩⟩],
    creators := [0],
    callables := [] }

/-- C10 (evaluating the code at the failing input): the claim says both
`begin_code_block` assertions hold for every code block of a run.  They do
not: `end_code_block` drains the Move queue by popping but emits the needed
Yul functions without clearing the set, so after a deployment block whose
creator needed any builtin, the runtime block's `begin_code_block` finds
`needed_yul_functions` nonempty and its second assertion fails (the
Move-queue assertion does hold: `[(true, true), (true, false)]`). -/
theorem c10_begin_code_block_assert_fails :
    (contractGen c10Program 10).finalState.assertLog = [(true, true), (true, false)] ∧
    (contractGen c10Program 10).finalState.neededYul = [.addU64] := by
  exact ⟨rfl, rfl⟩

/-- A body that borrows the same local twice. -/
def c8Code : List Bytecode :=
  [.callB [1] .oBorrowLoc [0], .callB [2] .oBorrowLoc [0]]

/-- C8 (evaluating the code at the failing input): `collect_borrowed_locals`
increments the memory position on every `BorrowLoc`, also when it overwrites
an existing entry, so borrowing the same local twice maps it to slot 1 while
the map has one entry: the positions are not the consecutive values `0..n-1`,
and the slot lies outside the `n`-word region `Malloc(n * 32)` allocates. -/
theorem c8_borrowed_local_positions_skip :
    collectBorrowedLocals c8Code = [(0, 1)] ∧
    ¬ ((collectBorrowedLocals c8Code).map (fun p => p.2) =
        List.range (collectBorrowedLocals c8Code).length) ∧
    (collectBorrowedLocals c8Code).any
      (fun p => (collectBorrowedLocals c8Code).length ≤ p.2) = true := by
  refine ⟨rfl, by decide, rfl⟩

/-- Is an expression a plain Yul variable (a legal assignment target)? -/
def expIsVar : YulExp → Bool
  | .varE _ => true
  | _ => false

mutual

/-- Does a statement (recursively) contain an assignment whose left-hand side
is not a variable — e.g. `mload($locals) := ...`? -/
def stmtBad : YulStmt → Bool
  | .assignS lhs _ => !expIsVar lhs
  | .switchS _ cases dflt =>
    casesBad cases ||
      (match dflt with
       | some b => stmtsBad b
       | none => false)
  | .forLoop b => stmtsBad b
  | .blockS b => stmtsBad b
  | .funDef _ _ _ b => stmtsBad b
  | _ => false

def stmtsBad : List YulStmt → Bool
  | [] => false
  | s :: rest => stmtBad s || stmtsBad rest

def casesBad : List (Nat × List YulStmt) → Bool
  | [] => false
  | c :: rest => stmtsBad c.2 || casesBad rest

end

/-- A function whose `u64` addition result (local 2) is later borrowed, so
local 2 is in the borrowed-locals set when the addition is translated. -/
def c7Program : Program :=
  { funs := [⟨2, 1, 4, [MoveType.u64, MoveType.u64, MoveType.u64, MoveType.u64],
      [.callB [2] .oAdd [0, 1], .callB [3] .oBorrowLoc [2], .ret [3]],
      ⟨[0], 0, fun _ => [], fun _ => false, fun b => if b = 0 then .basic 0 2 else .dummy⟩⟩],
    creators := [],
    callables := [0] }

/-- C7 (evaluating the code at the failing input): local 2 is borrowed (slot
0), yet the translation of the addition writes its destination through the
`local` closure on the left of `:=`, emitting `mload($locals) := $AddU64(...)`
— an assignment whose left-hand side is not a variable, not a redirected
`mstore` write into the `$locals` region. -/
theorem c7_borrowed_destination_not_redirected :
    collectBorrowedLocals (Program.funs c7Program |>.getD 0 dfltTarget).code = [(2, 0)] ∧
    stmtsBad (functionGen c7Program emptyGenState 0).2 = true := by
  exact ⟨rfl, rfl⟩

/-! ### C6: reconstruction of structured control flow -/

/-- Is a block's content basic (as opposed to a dummy block)? -/
def isBasicB : BlockContent → Bool
  | .basic _ _ => true
  | .dummy => false

theorem switchCasesFold_keys (tgt : FunTarget) (labelMap : List (Nat × Nat)) :
    ∀ (blocks : List Nat) (acc : GenState × List (Nat × List YulStmt)),
      (switchCasesFold tgt labelMap blocks acc).2.map (fun c => c.1) =
        acc.2.map (fun c => c.1) ++
          blocks.filter (fun b => isBasicB (tgt.cfg.content b))
  | [], acc => by simp [switchCasesFold]
  | blk :: rest, acc => by
    unfold switchCasesFold
    rw [List.foldl_cons]
    cases hc : tgt.cfg.content blk with
    | basic lo hi =>
      have ih := switchCasesFold_keys tgt labelMap rest
        ((translateRange acc.1 tgt labelMap lo hi true).1,
         acc.2 ++ [(blk, (translateRange acc.1 tgt labelMap lo hi true).2)])
      unfold switchCasesFold at ih
      simp only [hc]
      rw [ih]
      simp [isBasicB, hc, List.filter_cons]
    | dummy =>
      have ih := switchCasesFold_keys tgt labelMap rest acc
      unfold switchCasesFold at ih
      simp only [hc]
      rw [ih]
      simp [isBasicB, hc, List.filter_cons]

/-- C6: for every translated function, if every successor of the actual entry
block (found by skipping dummy lead-in blocks) is a dummy block, the body is
the straight-line translation of the entry block with no dispatch; otherwise
the body is `$block` initialized to the entry block id inside an unconditional
loop containing a single switch with one case per basic block; unconditional
jumps lower to an assignment of the target block id to `$block`, and
conditional branches to a switch on the condition whose `case 0` assigns the
false target and whose `default` assigns the true target. -/
theorem c6_control_flow_lowering (st : GenState) (tgt : FunTarget) (entry : Nat)
    (hentry : getActualEntryBlock tgt.cfg (tgt.cfg.blocks.length + 1) tgt.cfg.entry =
      some entry) :
    ((tgt.cfg.succ entry).all tgt.cfg.isDummy = true →
      ∀ lo hi, tgt.cfg.content entry = .basic lo hi →
        stateMachineStmts st tgt =
          translateRange st tgt (computeLabelMap tgt.cfg tgt.code) lo hi false) ∧
    (¬ ((tgt.cfg.succ entry).all tgt.cfg.isDummy = true) →
      stateMachineStmts st tgt =
        ((switchCasesFold tgt (computeLabelMap tgt.cfg tgt.code) tgt.cfg.blocks (st, [])).1,
         [.letInit ["$block"] (.litE entry),
          .forLoop [.switchS (.varE "$block")
            (switchCasesFold tgt (computeLabelMap tgt.cfg tgt.code) tgt.cfg.blocks
              (st, [])).2 none]]) ∧
      ((switchCasesFold tgt (computeLabelMap tgt.cfg tgt.code) tgt.cfg.blocks
          (st, [])).2.map (fun c => c.1) =
        tgt.cfg.blocks.filter (fun b => isBasicB (tgt.cfg.content b)))) ∧
    (∀ l blk hasFlow, lookupLabel (computeLabelMap tgt.cfg tgt.code) l = some blk →
      translateBytecode st tgt (computeLabelMap tgt.cfg tgt.code) (.jump l) hasFlow =
        (st, [.assignS (.varE "$block") (.litE blk)])) ∧
    (∀ lT lF cond bT bF hasFlow,
      lookupLabel (computeLabelMap tgt.cfg tgt.code) lT = some bT →
      lookupLabel (computeLabelMap tgt.cfg tgt.code) lF = some bF →
      translateBytecode st tgt (computeLabelMap tgt.cfg tgt.code) (.branch lT lF cond) hasFlow =
        (st, [.switchS (localExp st.borrowedLocals cond)
                [(0, [.assignS (.varE "$block") (.litE bF)])]
                (some [.assignS (.varE "$block") (.litE bT)])])) := by
  refine ⟨?_, ?_, ?_, ?_⟩
  · intro hall lo hi hcont
    unfold stateMachineStmts
    rw [hentry]
    simp only []
    rw [if_pos hall, hcont]
  · intro hnall
    refine ⟨?_, ?_⟩
    · unfold stateMachineStmts
      rw [hentry]
      simp only []
      rw [if_neg hnall]
    · have := switchCasesFold_keys tgt (computeLabelMap tgt.cfg tgt.code) tgt.cfg.blocks (st, [])
      simpa using this
  · intro l blk hasFlow hl
    unfold translateBytecode
    simp only []
    rw [hl]
  · intro lT lF cond bT bF hasFlow hT hF
    unfold translateBytecode
    simp only []
    rw [hT, hF]

/-- A three-block CFG with a conditional branch: block 0 branches on local 0
to label 1 (block 1) or label 2 (block 2). -/
def c6Tgt : FunTarget :=
  ⟨1, 0, 1, [MoveType.boolT],
   [.label 0, .branch 1 2 0, .label 1, .ret [], .label 2, .ret []],
   ⟨[0, 1, 2], 0, (fun b => if b = 0 then [1, 2] else []), (fun _ => false),
    (fun b => if b = 0 then .basic 0 1 else if b = 1 then .basic 2 3 else .basic 4 5)⟩⟩

/-- Witness for C6: in the three-block function, the jump to label 1 lowers to
`$block := 1`. -/
theorem c6_control_flow_lowering_witness :
    translateBytecode emptyGenState c6Tgt (computeLabelMap c6Tgt.cfg c6Tgt.code)
        (.jump 1) true =
      (emptyGenState, [.assignS (.varE "$block") (.litE 1)]) :=
  (c6_control_flow_lowering emptyGenState c6Tgt 0 rfl).2.2.1 1 1 true rfl

/-! ### C9: absence of any call-value check

A non-payable guard would read the call-value register — in Yul, a call to the
primitive `callvalue`.  The checkers below detect any such call anywhere in
emitted statements; the lemmas show the generator never produces one (the
dispatcher and marshalling are a TODO in `callable_functions`). -/

mutual

/-- Does an expression contain a call to the Yul primitive `callvalue`? -/
def expCV : YulExp → Bool
  | .varE _ => false
  | .litE _ => false
  | .boolE _ => false
  | .callE t args =>
    (match t with
     | .prim s => s == "callvalue"
     | _ => false) || expsCV args

def expsCV : List YulExp → Bool
  | [] => false
  | e :: rest => expCV e || expsCV rest

end

mutual

/-- Does a statement (recursively) contain a call to `callvalue`? -/
def stmtCV : YulStmt → Bool
  | .comment _ => false
  | .letDecl _ => false
  | .letInit _ rhs => expCV rhs
  | .assignS lhs rhs => expCV lhs || expCV rhs
  | .multiAssign _ rhs => expCV rhs
  | .exprS e => expCV e
  | .switchS scrut cases dflt =>
    expCV scrut || casesCV cases ||
      (match dflt with
       | some b => stmtsCV b
       | none => false)
  | .forLoop b => stmtsCV b
  | .leave => false
  | .blockS b => stmtsCV b
  | .funDef _ _ _ b => stmtsCV b
  | .yulDef _ => false
  | .impossible _ => false

def stmtsCV : List YulStmt → Bool
  | [] => false
  | s :: rest => stmtCV s || stmtsCV rest

def casesCV : List (Nat × List YulStmt) → Bool
  | [] => false
  | c :: rest => stmtsCV c.2 || casesCV rest

end

theorem stmtsCV_append (l1 l2 : List YulStmt) :
    stmtsCV (l1 ++ l2) = (stmtsCV l1 || stmtsCV l2) := by
  induction l1 with
  | nil => simp [stmtsCV]
  | cons s rest ih => simp [stmtsCV, ih, Bool.or_assoc]

theorem stmtsCV_false_of (l : List YulStmt) (h : ∀ s ∈ l, stmtCV s = false) :
    stmtsCV l = false := by
  induction l with
  | nil => rfl
  | cons s rest ih =>
    simp only [stmtsCV, h s (List.mem_cons_self s _),
      ih (fun t ht => h t (List.mem_cons_of_mem _ ht)), Bool.or_false]

theorem expsCV_false_of (l : List YulExp) (h : ∀ e ∈ l, expCV e = false) :
    expsCV l = false := by
  induction l with
  | nil => rfl
  | cons e rest ih =>
    simp only [expsCV, h e (List.mem_cons_self e _),
      ih (fun t ht => h t (List.mem_cons_of_mem _ ht)), Bool.or_false]

theorem casesCV_false_of (l : List (Nat × List YulStmt))
    (h : ∀ c ∈ l, stmtsCV c.2 = false) : casesCV l = false := by
  induction l with
  | nil => rfl
  | cons c rest ih =>
    simp only [casesCV, h c (List.mem_cons_self c _),
      ih (fun t ht => h t (List.mem_cons_of_mem _ ht)), Bool.or_false]

theorem expCV_localPtr (bl : List (Nat × Nat)) (i : Nat) (ptr : YulExp)
    (h : localPtr bl i = some ptr) : expCV ptr = false := by
  unfold localPtr at h
  cases hf : bl.find? (fun p => p.1 == i) with
  | none => rw [hf] at h; simp at h
  | some p =>
    rw [hf] at h
    cases Option.some.inj h
    show expCV (if p.2 = 0 then YulExp.varE "$locals"
      else YulExp.callE (.prim "add") [.varE "$locals", .litE (p.2 * 32)]) = false
    by_cases hz : p.2 = 0
    · rw [if_pos hz]; rfl
    · rw [if_neg hz]; rfl

theorem expCV_localPtrD (bl : List (Nat × Nat)) (i : Nat) :
    expCV ((localPtr bl i).getD (.varE "$locals")) = false := by
  cases hf : localPtr bl i with
  | none => rfl
  | some p => simpa using expCV_localPtr bl i p hf

theorem expCV_localExp (bl : List (Nat × Nat)) (i : Nat) :
    expCV (localExp bl i) = false := by
  unfold localExp
  cases hf : localPtr bl i with
  | none => rfl
  | some ptr =>
    show expCV (.callE (.prim "mload") [ptr]) = false
    simp only [expCV, expsCV, expCV_localPtr bl i ptr hf]
    rfl

theorem expsCV_map_localExp (bl : List (Nat × Nat)) (srcs : List Nat) :
    expsCV (srcs.map (localExp bl)) = false := by
  refine expsCV_false_of _ ?_
  intro e he
  rcases List.mem_map.mp he with ⟨i, _, hi⟩
  rw [← hi]
  exact expCV_localExp bl i

theorem expCV_constant (c : Constant) : expCV (constantExp c) = false := by
  cases c <;> rfl

theorem stmtCV_assignStmt (bl : List (Nat × Nat)) (d : Nat) (e : YulExp)
    (he : expCV e = false) : stmtCV (assignStmt bl d e) = false := by
  unfold assignStmt
  cases hf : localPtr bl d with
  | none => simp [stmtCV, expCV, he]
  | some ptr =>
    show stmtCV (.exprS (.callE (.prim "mstore") [ptr, e])) = false
    simp [stmtCV, expCV, expsCV, expCV_localPtr bl d ptr hf, he]

theorem stmtsCV_builtinStmt (st : GenState) (bl : List (Nat × Nat)) (f : YulFun)
    (dests srcs : List Nat) : stmtsCV (builtinStmt st bl f dests srcs).2 = false := by
  show stmtsCV [.assignS (localExp bl (dests.getD 0 0))
    (.callE (.yul f) (srcs.map (localExp bl)))] = false
  simp only [stmtsCV, stmtCV, expCV, expCV_localExp, expsCV_map_localExp,
    Bool.or_false, Bool.false_or]

theorem stmtsCV_builtinTyped (st : GenState) (bl : List (Nat × Nat)) (tgt : FunTarget)
    (f8 f64 f128 f256 : YulFun) (dests srcs : List Nat) :
    stmtsCV (builtinTypedStmt st bl tgt f8 f64 f128 f256 dests srcs).2 = false := by
  unfold builtinTypedStmt
  cases tgt.localTypes.getD (srcs.getD 0 0) MoveType.boolT <;>
    first
      | exact stmtsCV_builtinStmt _ _ _ _ _
      | rfl

theorem stmtsCV_moveCallGen (st : GenState) (dests : List Nat) (fid : Nat)
    (args : List YulExp) (hargs : expsCV args = false) :
    stmtsCV (moveCallGen st dests fid args).2 = false := by
  have hcall : expCV (.callE (.move fid) args) = false := by
    simp [expCV, hargs]
  unfold moveCallGen
  cases dests with
  | nil => simp [stmtsCV, stmtCV, hcall]
  | cons d rest =>
    cases rest with
    | nil =>
      simp only []
      refine stmtsCV_false_of _ ?_
      intro s hs
      rcases List.mem_singleton.mp hs with rfl
      exact stmtCV_assignStmt _ _ _ hcall
    | cons d2 rest2 =>
      simp only []
      split
      · refine stmtsCV_false_of _ ?_
        intro s hs
        rcases List.mem_singleton.mp hs with rfl
        show stmtCV (.blockS _) = false
        simp only [stmtCV]
        rw [stmtsCV_append]
        have h1 : ∀ names : List String,
            stmtsCV [YulStmt.letInit names (.callE (.move fid) args)] = false := by
          intro names
          simp [stmtsCV, stmtCV, hcall]
        rw [h1]
        simp only [Bool.false_or]
        refine stmtsCV_false_of _ ?_
        intro t ht
        rcases List.mem_filterMap.mp ht with ⟨p, _, hp⟩
        split at hp
        · cases hp
          exact stmtCV_assignStmt _ _ _ rfl
        · cases hp
      · refine stmtsCV_false_of _ ?_
        intro s hs
        rcases List.mem_singleton.mp hs with rfl
        simp [stmtCV, hcall]

theorem stmtsCV_translateBytecode (st : GenState) (tgt : FunTarget)
    (lm : List (Nat × Nat)) (bc : Bytecode) (hasFlow : Bool) :
    stmtsCV (translateBytecode st tgt lm bc hasFlow).2 = false := by
  unfold translateBytecode
  cases bc with
  | jump l =>
    simp only []
    cases lookupLabel lm l <;> rfl
  | branch ifT ifF cond =>
    simp only []
    cases lookupLabel lm ifT with
    | none => cases lookupLabel lm ifF <;> rfl
    | some bT =>
      cases lookupLabel lm ifF with
      | none => rfl
      | some bF =>
        simp only [stmtsCV, stmtCV, Bool.or_false, expCV_localExp]
        rfl
  | assignB dest src =>
    simp only [stmtsCV, Bool.or_false]
    simp [stmtCV_assignStmt st.borrowedLocals dest _ (expCV_localExp _ _)]
  | load dest c =>
    simp only [stmtsCV, stmtCV, Bool.or_false]
    simp [expCV_localExp, expCV_constant]
  | ret results =>
    simp only []
    have hres : stmtsCV (results.enum.map (fun p =>
        YulStmt.assignS (.varE (resultName tgt p.1)) (localExp st.borrowedLocals p.2))) =
        false := by
      refine stmtsCV_false_of _ ?_
      intro s hs
      rcases List.mem_map.mp hs with ⟨p, _, hp⟩
      rw [← hp]
      simp [stmtCV, expCV, expCV_localExp]
    split
    · rw [stmtsCV_append, hres]
      cases hasFlow <;> rfl
    · unfold callBuiltinStr
      simp only []
      rw [stmtsCV_append, stmtsCV_append, hres]
      have h2 : stmtsCV [YulStmt.exprS (.callE (.yul .free)
          [.varE "$locals", .litE (st.borrowedLocals.length * 32)])] = false := rfl
      rw [h2]
      cases hasFlow <;> rfl
  | abortB code =>
    unfold callBuiltinStr
    simp only [stmtsCV, stmtCV, expCV, Bool.or_false, Bool.false_or]
    simp [expsCV, expCV_localExp]
  | callB dests op srcs =>
    cases op with
    | oFunction fid =>
      exact stmtsCV_moveCallGen _ _ _ _ (expsCV_map_localExp _ _)
    | oBorrowLoc =>
      simp only []
      cases hf : localPtr st.borrowedLocals (srcs.getD 0 0) with
      | none => rfl
      | some ptr =>
        unfold callBuiltinStr
        simp only [stmtsCV, stmtCV, expCV, expsCV, Bool.or_false, Bool.false_or]
        simp [expCV_localPtr st.borrowedLocals _ ptr hf]
    | oAdd => exact stmtsCV_builtinTyped _ _ _ _ _ _ _ _ _
    | oSub => exact stmtsCV_builtinStmt _ _ _ _ _
  | label l => rfl
  | nop => rfl

theorem stmtsCV_translateRange (tgt : FunTarget) (lm : List (Nat × Nat))
    (lo hi : Nat) (hasFlow : Bool) :
    ∀ (offsets : List Nat) (st : GenState) (acc : List YulStmt),
      stmtsCV acc = false →
      stmtsCV (offsets.foldl
        (fun (acc : GenState × List YulStmt) offs =>
          match translateBytecode acc.1 tgt lm (tgt.code.getD offs .nop) hasFlow with
          | (st2, stmts) => (st2, acc.2 ++ stmts)) (st, acc)).2 = false
  | [], st, acc, hacc => hacc
  | offs :: rest, st, acc, hacc => by
    rw [List.foldl_cons]
    have hbc := stmtsCV_translateBytecode st tgt lm (tgt.code.getD offs .nop) hasFlow
    have hstep : stmtsCV (acc ++
        (translateBytecode st tgt lm (tgt.code.getD offs .nop) hasFlow).2) = false := by
      rw [stmtsCV_append, hacc, hbc]
      rfl
    exact stmtsCV_translateRange tgt lm lo hi hasFlow rest _ _ hstep

theorem stmtsCV_translateRange_apply (st : GenState) (tgt : FunTarget)
    (lm : List (Nat × Nat)) (lo hi : Nat) (hasFlow : Bool) :
    stmtsCV (translateRange st tgt lm lo hi hasFlow).2 = false := by
  unfold translateRange
  exact stmtsCV_translateRange tgt lm lo hi hasFlow _ st [] rfl

theorem casesCV_append_single (cs : List (Nat × List YulStmt)) (c : Nat × List YulStmt)
    (h1 : casesCV cs = false) (h2 : stmtsCV c.2 = false) :
    casesCV (cs ++ [c]) = false := by
  induction cs with
  | nil => simp only [List.nil_append, casesCV, h2, Bool.or_false]
  | cons d ds ih =>
    simp only [casesCV] at h1
    have hd : stmtsCV d.2 = false := by
      cases hx : stmtsCV d.2 with
      | false => rfl
      | true => rw [hx] at h1; simp at h1
    have hds : casesCV ds = false := by
      cases hx : casesCV ds with
      | false => rfl
      | true => rw [hx] at h1; simp at h1
    rw [List.cons_append]
    simp only [casesCV, hd, Bool.false_or]
    exact ih hds

theorem casesCV_switchCasesFold (tgt : FunTarget) (lm : List (Nat × Nat)) :
    ∀ (blocks : List Nat) (acc : GenState × List (Nat × List YulStmt)),
      casesCV acc.2 = false →
      casesCV (switchCasesFold tgt lm blocks acc).2 = false
  | [], acc, hacc => by simpa [switchCasesFold] using hacc
  | blk :: rest, acc, hacc => by
    unfold switchCasesFold
    rw [List.foldl_cons]
    cases hc : tgt.cfg.content blk with
    | basic lo hi =>
      have hnext : casesCV (acc.2 ++
          [(blk, (translateRange acc.1 tgt lm lo hi true).2)]) = false :=
        casesCV_append_single acc.2 _ hacc (stmtsCV_translateRange_apply _ _ _ _ _ _)
      have := casesCV_switchCasesFold tgt lm rest
        ((translateRange acc.1 tgt lm lo hi true).1,
         acc.2 ++ [(blk, (translateRange acc.1 tgt lm lo hi true).2)]) hnext
      unfold switchCasesFold at this
      simpa [hc] using this
    | dummy =>
      have := casesCV_switchCasesFold tgt lm rest acc hacc
      unfold switchCasesFold at this
      simpa [hc] using this

theorem stmtsCV_stateMachine (st : GenState) (tgt : FunTarget) :
    stmtsCV (stateMachineStmts st tgt).2 = false := by
  unfold stateMachineStmts
  cases getActualEntryBlock tgt.cfg (tgt.cfg.blocks.length + 1) tgt.cfg.entry with
  | none => rfl
  | some entry =>
    simp only []
    split
    · cases tgt.cfg.content entry with
      | basic lo hi => exact stmtsCV_translateRange_apply st tgt _ lo hi false
      | dummy => rfl
    · have hcases := casesCV_switchCasesFold tgt (computeLabelMap tgt.cfg tgt.code)
        tgt.cfg.blocks (st, []) rfl
      simp only [stmtsCV, stmtCV, expCV, casesCV, Bool.or_false, Bool.false_or]
      simp [hcases]

theorem stmtsCV_localsDecl (tgt : FunTarget) (bl : List (Nat × Nat)) :
    stmtsCV (localsDeclStmts tgt bl) = false := by
  unfold localsDeclStmts
  simp only []
  split <;> rfl

theorem stmtsCV_allocLocals (st1 : GenState) (bl : List (Nat × Nat)) (pc : Nat) :
    stmtsCV (allocLocalsStmts st1 bl pc).2 = false := by
  unfold allocLocalsStmts
  split
  · rfl
  · show stmtsCV ([.letInit ["$locals"]
      (.callE (.yul .malloc) [.litE (bl.length * 32)])] ++
      bl.filterMap (fun p =>
        if p.1 < pc then
          some (.exprS (.callE (.prim "mstore")
            [(localPtr bl p.1).getD (.varE "$locals"), .varE (localName p.1)]))
        else none)) = false
    rw [stmtsCV_append]
    have h1 : stmtsCV [YulStmt.letInit ["$locals"]
        (.callE (.yul .malloc) [.litE (bl.length * 32)])] = false := rfl
    rw [h1]
    simp only [Bool.false_or]
    refine stmtsCV_false_of _ ?_
    intro s hs
    rcases List.mem_filterMap.mp hs with ⟨p, _, hp⟩
    split at hp
    · cases hp
      simp [stmtCV, expCV, expsCV, expCV_localPtrD]
    · cases hp

theorem stmtsCV_functionGen (P : Program) (st : GenState) (fid : Nat) :
    stmtsCV (functionGen P st fid).2 = false := by
  unfold functionGen
  simp only [stmtsCV, stmtCV, Bool.or_false]
  rw [stmtsCV_append, stmtsCV_append, stmtsCV_localsDecl, stmtsCV_allocLocals,
    stmtsCV_stateMachine]
  rfl

theorem stmtsCV_drainLoop (P : Program) :
    ∀ (fuel : Nat) (st : GenState), stmtsCV (drainLoop P fuel st).2 = false
  | 0, st => rfl
  | fuel + 1, st => by
    unfold drainLoop
    cases st.neededMove with
    | nil => rfl
    | cons fid rest =>
      simp only []
      split
      · exact stmtsCV_drainLoop P fuel _
      · show stmtsCV ((functionGen P { st with neededMove := rest } fid).2 ++
          (drainLoop P fuel (functionGen P { st with neededMove := rest } fid).1).2) = false
        rw [stmtsCV_append, stmtsCV_functionGen, stmtsCV_drainLoop P fuel]
        rfl

theorem stmtsCV_endCodeBlock (P : Program) (fuel : Nat) (st : GenState) :
    stmtsCV (endCodeBlockGen P fuel st).2 = false := by
  unfold endCodeBlockGen
  show stmtsCV ((drainLoop P fuel st).2 ++
    (drainLoop P fuel st).1.neededYul.map (fun f => .yulDef f)) = false
  rw [stmtsCV_append, stmtsCV_drainLoop]
  simp only [Bool.false_or]
  refine stmtsCV_false_of _ ?_
  intro s hs
  rcases List.mem_map.mp hs with ⟨f, _, hf⟩
  rw [← hf]
  rfl

theorem stmtsCV_dummyCall (P : Program) (k fid : Nat) :
    stmtsCV (dummyCallStmts P k fid).2 = false := by
  unfold dummyCallStmts
  simp only []
  rw [stmtsCV_append]
  have hcall : expCV (YulExp.callE (.move fid)
      ((List.range (P.funs.getD fid dfltTarget).paramCount).map
        (fun i => .callE (.prim "sload") [.litE (100 + k + i)]))) = false := by
    show (false || expsCV _) = false
    simp only [Bool.false_or]
    refine expsCV_false_of _ ?_
    intro e he
    rcases List.mem_map.mp he with ⟨i, _, hi⟩
    rw [← hi]
    rfl
  have h2 : stmtsCV ((List.range (P.funs.getD fid dfltTarget).returnCount).map (fun i =>
      YulStmt.exprS (.callE (.prim "sstore")
        [.litE (200 + k + i), .varE ("$dummy" ++ toString (k + i))]))) = false := by
    refine stmtsCV_false_of _ ?_
    intro s hs
    rcases List.mem_map.mp hs with ⟨i, _, hi⟩
    rw [← hi]
    rfl
  rw [h2]
  simp only [Bool.or_false]
  split
  · simp only [stmtsCV, stmtCV, Bool.or_false]
    exact hcall
  · simp only [stmtsCV, stmtCV, Bool.or_false]
    exact hcall

theorem stmtsCV_dummyFold (P : Program) :
    ∀ (fids : List Nat) (acc : Nat × List YulStmt), stmtsCV acc.2 = false →
      stmtsCV (fids.foldl (fun (acc : Nat × List YulStmt) fid =>
        match dummyCallStmts P acc.1 fid with
        | (n2, stmts) => (n2, acc.2 ++ stmts)) acc).2 = false
  | [], _, hacc => hacc
  | fid :: rest, acc, hacc => by
    rw [List.foldl_cons]
    have hstep : stmtsCV (acc.2 ++ (dummyCallStmts P acc.1 fid).2) = false := by
      rw [stmtsCV_append, hacc, stmtsCV_dummyCall]
      rfl
    exact stmtsCV_dummyFold P rest _ hstep

theorem stmtsCV_funFold (P : Program) :
    ∀ (fids : List Nat) (acc : GenState × List YulStmt), stmtsCV acc.2 = false →
      stmtsCV (fids.foldl (fun (acc : GenState × List YulStmt) fid =>
        match functionGen P acc.1 fid with
        | (st2, stmts) => (st2, acc.2 ++ stmts)) acc).2 = false
  | [], _, hacc => hacc
  | fid :: rest, acc, hacc => by
    rw [List.foldl_cons]
    have hstep : stmtsCV (acc.2 ++ (functionGen P acc.1 fid).2) = false := by
      rw [stmtsCV_append, hacc, stmtsCV_functionGen]
      rfl
    exact stmtsCV_funFold P rest _ hstep

theorem stmtsCV_callableFunctions (P : Program) (st : GenState) :
    stmtsCV (callableFunctionsGen P st).2 = false := by
  unfold callableFunctionsGen
  simp only []
  exact stmtsCV_funFold P P.callables (st, _)
    (stmtsCV_dummyFold P P.callables (0, []) rfl)

theorem stmtsCV_optionalCreator (P : Program) (st : GenState) :
    stmtsCV (optionalCreatorGen P st).2 = false := by
  unfold optionalCreatorGen
  simp only []
  cases P.creators.getLast? with
  | none => rfl
  | some fid =>
    simp only []
    show stmtsCV ((functionGen P _ fid).2 ++ [.comment "TODO: invocation"]) = false
    rw [stmtsCV_append, stmtsCV_functionGen]
    rfl

/-- A module with a single non-payable `#[callable]` function — one `u64`
parameter, one `u64` result, body a `u64` addition — and no creator. -/
def c9Program : Program :=
  { funs := [⟨1, 1, 2, [MoveType.u64, MoveType.u64],
      [.load 1 (.u64C 1), .callB [1] .oAdd [0, 1], .ret [1]],
      ⟨[0], 0, fun _ => [], fun _ => false, fun b => if b = 0 then .basic 0 2 else .dummy⟩⟩],
    creators := [],
    callables := [0] }

/-- C9: the claim says the emitted runtime code checks the call-value
register for every non-payable callable and aborts with the fixed
non-payable code before parameter decoding.  Corrected:
`callable_functions` generates no dispatcher and no call-value check at all
(the source leaves entry-point generation as a TODO between the dummy calls
and the function definitions), so no `callvalue` instruction occurs anywhere
in the emitted runtime code block, for any module and any drain fuel. -/
theorem c9_nonpayable_callvalue_check (P : Program) (fuel : Nat) :
    stmtsCV (contractGen P fuel).runtimeStmts = false := by
  unfold contractGen
  simp only []
  show stmtsCV ([YulStmt.exprS (.callE (.prim "mstore")
      [.litE 64, .callE (.prim "memoryguard") [.litE 160]])] ++
    (callableFunctionsGen P (beginCodeBlockGen
      (endCodeBlockGen P fuel
        (optionalCreatorGen P (beginCodeBlockGen emptyGenState)).1).1)).2 ++
    (endCodeBlockGen P fuel (callableFunctionsGen P (beginCodeBlockGen
      (endCodeBlockGen P fuel
        (optionalCreatorGen P (beginCodeBlockGen emptyGenState)).1).1)).1).2) = false
  rw [stmtsCV_append, stmtsCV_append, stmtsCV_callableFunctions, stmtsCV_endCodeBlock]
  rfl

/-- C9 counterexample at a concrete input: the runtime code block emitted
for a module with one non-payable callable is nonempty, yet it contains no
`callvalue` call anywhere — hence no value check and no non-payable abort
before parameter decoding. -/
theorem c9_no_callvalue_counterexample :
    stmtsCV (contractGen c9Program 10).runtimeStmts = false ∧
    0 < (contractGen c9Program 10).runtimeStmts.length :=
  ⟨rfl, by decide⟩

end MoveToYul
